import Mathlib

/-!
Verification development for the `prox` browsing proxy
(`src/server/proxyMiddleware.ts`, the revision with the response-rewriting
pipeline: `onProxyRes` body rewriting, `Location` rewriting, charset and
content-encoding handling, and the request handler `createProxyHandler`).

The TypeScript source is embedded shallowly:
* text is `List Char`; bytes are `Nat` (0..255 by construction);
* the JS builtins the source calls (`encodeURIComponent`,
  `decodeURIComponent`, `new URL`, the regex engine for the two concrete
  patterns appearing in the source) are modelled by executable Lean
  functions restricted to the ASCII inputs the proxy manipulates;
* storage (`storage.ts`) is modelled as an explicit state record threaded
  through the handler.
-/

namespace Prox

/-! ### Basic character classes (ASCII fragment of the JS regex classes) -/

/-- ASCII lower-casing, the fragment of JS case-insensitive matching used by
the `/gi` patterns in the source (all the literals involved are ASCII). -/
def lcChar (c : Char) : Char :=
  if 'A' ≤ c && c ≤ 'Z' then Char.ofNat (c.toNat + 32) else c

def lcList (s : List Char) : List Char := s.map lcChar

/-- JS `\s` on the ASCII range: space, tab, LF, VT, FF, CR. -/
def isWsChar (c : Char) : Bool :=
  c = ' ' || c = '\t' || c = '\n' || c = '\r' || c = Char.ofNat 11 || c = Char.ofNat 12

def isAlphaChar (c : Char) : Bool :=
  ('a' ≤ c && c ≤ 'z') || ('A' ≤ c && c ≤ 'Z')

def isDigitChar (c : Char) : Bool := '0' ≤ c && c ≤ '9'

/-- Double quote. -/
def quoteD : Char := Char.ofNat 34
/-- Single quote. -/
def quoteS : Char := Char.ofNat 39
/-- Backtick. -/
def quoteB : Char := Char.ofNat 96

/-- The quote class `['"]` plus backtick of the source's URL pattern. -/
def isQuoteChar (c : Char) : Bool := c = quoteD || c = quoteS || c = quoteB

/-- The value class of the source's URL pattern: the characters the lazy
group 4 may consume, i.e. everything outside whitespace, quotes and
parentheses. -/
def isValChar (c : Char) : Bool :=
  !isWsChar c && !isQuoteChar c && c ≠ '(' && c ≠ ')'

/-- `s` begins with `p` (exact characters). -/
def startsWithL (p s : List Char) : Bool := s.take p.length = p

/-- `s` begins with `p` up to ASCII case (`p` is given lower-case);
models a case-insensitive literal inside a `/i` regex. -/
def startsWithCI (p s : List Char) : Bool := lcList (s.take p.length) = p

/-! ### `encodeURIComponent` / `decodeURIComponent`

`encodeURIComponent` leaves the unreserved characters
`A-Z a-z 0-9 - _ . ! ~ * ' ( )` and percent-encodes the UTF-8 bytes of
every other character with upper-case hex digits.  `decodeURIComponent`
is modelled on ASCII strings (the only strings the proxy ever decodes,
since `encodeURIComponent` output is ASCII): `%XX` triplets are turned
into bytes and the byte stream is UTF-8-decoded to code points. -/

def isUnreservedURI (c : Char) : Bool :=
  (65 ≤ c.toNat && c.toNat ≤ 90) || (97 ≤ c.toNat && c.toNat ≤ 122) ||
  (48 ≤ c.toNat && c.toNat ≤ 57) ||
  c.toNat = 45 || c.toNat = 95 || c.toNat = 46 || c.toNat = 33 ||
  c.toNat = 126 || c.toNat = 42 || c.toNat = 39 || c.toNat = 40 || c.toNat = 41

def hexDigitsU : List Char := "0123456789ABCDEF".data

def hexU (n : Nat) : Char := hexDigitsU.getD n '0'

/-- UTF-8 bytes of a code point. -/
def utf8Bytes (n : Nat) : List Nat :=
  if n < 0x80 then [n]
  else if n < 0x800 then [0xC0 + n / 64, 0x80 + n % 64]
  else if n < 0x10000 then [0xE0 + n / 4096, 0x80 + n / 64 % 64, 0x80 + n % 64]
  else [0xF0 + n / 262144, 0x80 + n / 4096 % 64, 0x80 + n / 64 % 64, 0x80 + n % 64]

def pctTriple (b : Nat) : List Char := ['%', hexU (b / 16), hexU (b % 16)]

def encURIChar (c : Char) : List Char :=
  if isUnreservedURI c then [c] else (utf8Bytes c.toNat).flatMap pctTriple

/-- `encodeURIComponent` on character lists. -/
def encURI (s : List Char) : List Char := s.flatMap encURIChar

def hexVal (c : Char) : Option Nat :=
  if 48 ≤ c.toNat && c.toNat ≤ 57 then some (c.toNat - 48)
  else if 65 ≤ c.toNat && c.toNat ≤ 70 then some (c.toNat - 55)
  else if 97 ≤ c.toNat && c.toNat ≤ 102 then some (c.toNat - 87)
  else none

/-- One step of the first phase of `decodeURIComponent` on ASCII input: a
percent-triplet becomes its byte, any other ASCII character becomes its own
byte (a lone `%` or a non-ASCII character makes decoding fail, as the JS
builtin throws `URIError` / is out of the modelled ASCII fragment). -/
def pctStep (s : List Char) : Option (Nat × List Char) :=
  match s with
  | [] => none
  | c :: t =>
    if c = '%' then
      match t with
      | h :: l :: t2 =>
        match hexVal h, hexVal l with
        | some hv, some lv => some (16 * hv + lv, t2)
        | _, _ => none
      | _ => none
    else if c.toNat < 0x80 then some (c.toNat, t) else none

theorem pctStep_shrink (s : List Char) (b : Nat) (rest : List Char)
    (h : pctStep s = some (b, rest)) : rest.length < s.length := by
  unfold pctStep at h
  split at h
  · exact Option.noConfusion h
  · split_ifs at h
    · split at h
      · split at h
        · cases h
          simp only [List.length_cons]
          omega
        · exact Option.noConfusion h
      · exact Option.noConfusion h
    · cases h
      simp only [List.length_cons]
      omega

/-- First phase of `decodeURIComponent` on ASCII input: percent-triplets
become bytes, other (ASCII) characters become their own byte. -/
def pctToBytes (s : List Char) : Option (List Nat) :=
  match h : pctStep s with
  | none => if s = [] then some [] else none
  | some (b, rest) => (pctToBytes rest).map (fun r => b :: r)
termination_by s.length
decreasing_by exact pctStep_shrink s b rest h

def isContByte (b : Nat) : Bool := 0x80 ≤ b && b < 0xC0

/-- Continuation-byte parsing for `utf8Step`: `k` continuation bytes are
taken from `t` and folded onto the lead value. -/
def utf8Cont (k lead : Nat) (t : List Nat) : Option (Nat × List Nat) :=
  if t.length < k then none
  else if (t.take k).all isContByte then
    some ((t.take k).foldl (fun acc x => acc * 64 + (x - 0x80)) lead, t.drop k)
  else none

/-- Decode one UTF-8 code point from the front of a byte stream: a lead byte
followed by the continuation bytes its range announces (overlong forms are
not rejected; `encodeURIComponent` never emits them). -/
def utf8Step (s : List Nat) : Option (Nat × List Nat) :=
  match s with
  | [] => none
  | b :: t =>
    if b < 0x80 then some (b, t)
    else if b < 0xC0 then none
    else if b < 0xE0 then utf8Cont 1 (b - 0xC0) t
    else if b < 0xF0 then utf8Cont 2 (b - 0xE0) t
    else if b < 0xF8 then utf8Cont 3 (b - 0xF0) t
    else none

theorem utf8Cont_shrink (k lead : Nat) (t : List Nat) (n : Nat) (rest : List Nat)
    (h : utf8Cont k lead t = some (n, rest)) : rest.length ≤ t.length := by
  unfold utf8Cont at h
  split_ifs at h
  cases h
  simp only [List.length_drop]
  omega

theorem utf8Step_shrink (s : List Nat) (n : Nat) (rest : List Nat)
    (h : utf8Step s = some (n, rest)) : rest.length < s.length := by
  unfold utf8Step at h
  split at h
  · exact Option.noConfusion h
  · split_ifs at h
    all_goals first
      | (cases h <;> (simp only [List.length_cons] ; omega))
      | (have hle := utf8Cont_shrink _ _ _ _ _ h
         simp only [List.length_cons]
         omega)

/-- Second phase: UTF-8 decoding of the byte stream to code points. -/
def utf8Decode (s : List Nat) : Option (List Nat) :=
  match h : utf8Step s with
  | none => if s = [] then some [] else none
  | some (n, rest) => (utf8Decode rest).map (fun r => n :: r)
termination_by s.length
decreasing_by exact utf8Step_shrink s n rest h

/-- `decodeURIComponent` on ASCII input, producing the decoded code points. -/
def decURI (s : List Char) : Option (List Nat) := (pctToBytes s).bind utf8Decode

/-! #### Round-trip lemmas for encode/decode -/

theorem char_toNat_lt (c : Char) : c.toNat < 1114112 := by
  have h := c.valid
  rcases h with h | h
  · exact Nat.lt_trans h (by norm_num)
  · exact h.2

theorem hexVal_hexU {n : Nat} (h : n < 16) : hexVal (hexU n) = some n := by
  interval_cases n <;> decide

theorem pctStep_triple (b : Nat) (hb : b < 256) (r : List Char) :
    pctStep (pctTriple b ++ r) = some (b, r) := by
  have h1 : b / 16 < 16 := by omega
  have h2 : b % 16 < 16 := by omega
  have hb' : 16 * (b / 16) + b % 16 = b := by omega
  simp only [pctTriple, List.cons_append, List.nil_append, pctStep, if_pos rfl,
    hexVal_hexU h1, hexVal_hexU h2, hb']
  simp

theorem pctStep_raw (c : Char) (t : List Char) (hc : ¬ c = '%') (ha : c.toNat < 0x80) :
    pctStep (c :: t) = some (c.toNat, t) := by
  simp only [pctStep, if_neg hc, if_pos ha]

theorem pctToBytes_nil : pctToBytes [] = some [] := by
  rw [pctToBytes]
  rfl

theorem pctToBytes_pctTriple (b : Nat) (hb : b < 256) (r : List Char) :
    pctToBytes (pctTriple b ++ r) = (pctToBytes r).map (fun t => b :: t) := by
  conv_lhs => rw [pctToBytes]
  rw [pctStep_triple b hb]

theorem pctToBytes_raw (c : Char) (t : List Char) (hc : ¬ c = '%') (ha : c.toNat < 0x80) :
    pctToBytes (c :: t) = (pctToBytes t).map (fun r => c.toNat :: r) := by
  conv_lhs => rw [pctToBytes]
  rw [pctStep_raw c t hc ha]

theorem utf8Bytes_lt_256 (n : Nat) (h : n < 0x110000) :
    ∀ b ∈ utf8Bytes n, b < 256 := by
  unfold utf8Bytes
  split_ifs <;> simp <;> omega

theorem encURIChar_unreserved {c : Char} (hc : isUnreservedURI c = true) :
    c ≠ '%' ∧ c.toNat < 0x80 := by
  constructor
  · intro he
    subst he
    simp [isUnreservedURI] at hc
  · simp [isUnreservedURI] at hc
    omega

theorem pctToBytes_flat (s : List Char) (r : List Char) :
    pctToBytes (encURI s ++ r) =
      (pctToBytes r).map (fun t => s.flatMap (fun c => utf8Bytes c.toNat) ++ t) := by
  induction s with
  | nil =>
    simp only [encURI, List.flatMap_nil, List.nil_append]
    cases pctToBytes r <;> simp
  | cons c s ih =>
    have hlt : c.toNat < 0x110000 := char_toNat_lt c
    by_cases hc : isUnreservedURI c
    · obtain ⟨hp, hascii⟩ := encURIChar_unreserved hc
      have hbyte : utf8Bytes c.toNat = [c.toNat] := by
        unfold utf8Bytes
        rw [if_pos hascii]
      have hstep : encURIChar c = [c] := by simp [encURIChar, hc]
      show pctToBytes ((encURIChar c ++ encURI s) ++ r) = _
      rw [hstep]
      simp only [List.cons_append, List.nil_append]
      rw [pctToBytes_raw c _ hp hascii]
      rw [ih]
      simp only [List.flatMap_cons, hbyte]
      cases pctToBytes r <;> simp
    · have henc : encURIChar c = (utf8Bytes c.toNat).flatMap pctTriple := by
        simp [encURIChar, hc]
      have key : ∀ bs : List Nat, (∀ b ∈ bs, b < 256) → ∀ rest : List Char,
          pctToBytes (bs.flatMap pctTriple ++ rest) =
            (pctToBytes rest).map (fun t => bs ++ t) := by
        intro bs
        induction bs with
        | nil =>
          intro _ rest
          simp only [List.flatMap_nil, List.nil_append]
          cases pctToBytes rest <;> simp
        | cons b bs ihb =>
          intro hall rest
          have hb : b < 256 := hall b (by simp)
          simp only [List.flatMap_cons, List.append_assoc]
          rw [pctToBytes_pctTriple b hb]
          rw [ihb (fun x hx => hall x (by simp [hx]))]
          cases pctToBytes rest <;> simp
      show pctToBytes ((encURIChar c ++ encURI s) ++ r) = _
      rw [henc]
      rw [List.append_assoc]
      rw [key (utf8Bytes c.toNat) (utf8Bytes_lt_256 _ hlt)]
      rw [ih]
      simp only [List.flatMap_cons]
      cases pctToBytes r <;> simp

theorem utf8Step_bytes (n : Nat) (h : n < 0x110000) (r : List Nat) :
    utf8Step (utf8Bytes n ++ r) = some (n, r) := by
  unfold utf8Bytes
  split_ifs with h1 h2 h3
  · simp only [List.cons_append, List.nil_append, utf8Step, if_pos h1]
  · have e1 : ¬ (0xC0 + n / 64 < 0x80) := by omega
    have e2 : ¬ (0xC0 + n / 64 < 0xC0) := by omega
    have e3 : 0xC0 + n / 64 < 0xE0 := by omega
    have e5 : isContByte (0x80 + n % 64) = true := by
      simp only [isContByte, Bool.and_eq_true, decide_eq_true_eq]
      omega
    simp only [List.cons_append, List.nil_append, utf8Step, if_neg e1, if_neg e2, if_pos e3]
    unfold utf8Cont
    rw [if_neg (by simp only [List.length_cons] ; omega)]
    rw [if_pos (by simp [e5])]
    simp only [List.take_succ_cons, List.take_zero, List.foldl_cons, List.foldl_nil,
      List.drop_succ_cons, List.drop_zero]
    have ev : (0xC0 + n / 64 - 0xC0) * 64 + (0x80 + n % 64 - 0x80) = n := by omega
    rw [ev]
  · have e1 : ¬ (0xE0 + n / 4096 < 0x80) := by omega
    have e2 : ¬ (0xE0 + n / 4096 < 0xC0) := by omega
    have e3 : ¬ (0xE0 + n / 4096 < 0xE0) := by omega
    have e4 : 0xE0 + n / 4096 < 0xF0 := by omega
    have e5 : isContByte (0x80 + n / 64 % 64) = true := by
      simp only [isContByte, Bool.and_eq_true, decide_eq_true_eq]
      omega
    have e6 : isContByte (0x80 + n % 64) = true := by
      simp only [isContByte, Bool.and_eq_true, decide_eq_true_eq]
      omega
    simp only [List.cons_append, List.nil_append, utf8Step, if_neg e1, if_neg e2, if_neg e3,
      if_pos e4]
    unfold utf8Cont
    rw [if_neg (by simp only [List.length_cons] ; omega)]
    rw [if_pos (by simp [e5, e6])]
    simp only [List.take_succ_cons, List.take_zero, List.foldl_cons, List.foldl_nil,
      List.drop_succ_cons, List.drop_zero]
    have ev : ((0xE0 + n / 4096 - 0xE0) * 64 + (0x80 + n / 64 % 64 - 0x80)) * 64 +
        (0x80 + n % 64 - 0x80) = n := by omega
    rw [ev]
  · have e1 : ¬ (0xF0 + n / 262144 < 0x80) := by omega
    have e2 : ¬ (0xF0 + n / 262144 < 0xC0) := by omega
    have e3 : ¬ (0xF0 + n / 262144 < 0xE0) := by omega
    have e4 : ¬ (0xF0 + n / 262144 < 0xF0) := by omega
    have e4b : 0xF0 + n / 262144 < 0xF8 := by
      have hd : n / 262144 < 5 := by omega
      omega
    have e5 : isContByte (0x80 + n / 4096 % 64) = true := by
      simp only [isContByte, Bool.and_eq_true, decide_eq_true_eq]
      omega
    have e6 : isContByte (0x80 + n / 64 % 64) = true := by
      simp only [isContByte, Bool.and_eq_true, decide_eq_true_eq]
      omega
    have e7 : isContByte (0x80 + n % 64) = true := by
      simp only [isContByte, Bool.and_eq_true, decide_eq_true_eq]
      omega
    simp only [List.cons_append, List.nil_append, utf8Step, if_neg e1, if_neg e2, if_neg e3,
      if_neg e4, if_pos e4b]
    unfold utf8Cont
    rw [if_neg (by simp only [List.length_cons] ; omega)]
    rw [if_pos (by simp [e5, e6, e7])]
    simp only [List.take_succ_cons, List.take_zero, List.foldl_cons, List.foldl_nil,
      List.drop_succ_cons, List.drop_zero]
    have ev : (((0xF0 + n / 262144 - 0xF0) * 64 + (0x80 + n / 4096 % 64 - 0x80)) * 64 +
        (0x80 + n / 64 % 64 - 0x80)) * 64 + (0x80 + n % 64 - 0x80) = n := by omega
    rw [ev]

theorem utf8Decode_nil : utf8Decode [] = some [] := by
  rw [utf8Decode]
  rfl

theorem utf8Decode_bytes (n : Nat) (h : n < 0x110000) (r : List Nat) :
    utf8Decode (utf8Bytes n ++ r) = (utf8Decode r).map (fun t => n :: t) := by
  rw [utf8Decode]
  rw [utf8Step_bytes n h r]

theorem utf8Decode_flat (s : List Char) :
    utf8Decode (s.flatMap (fun c => utf8Bytes c.toNat)) = some (s.map Char.toNat) := by
  induction s with
  | nil => simp [utf8Decode_nil]
  | cons c s ih =>
    simp only [List.flatMap_cons]
    rw [utf8Decode_bytes c.toNat (char_toNat_lt c), ih]
    simp

/-- `decodeURIComponent ∘ encodeURIComponent` is the identity (read through
code points): the encode-then-decode round trip of the proxy link scheme. -/
theorem decURI_encURI (s : List Char) : decURI (encURI s) = some (s.map Char.toNat) := by
  have h0 : encURI s ++ [] = encURI s := List.append_nil _
  have h := pctToBytes_flat s []
  rw [h0] at h
  have hnil : pctToBytes [] = some [] := pctToBytes_nil
  rw [hnil] at h
  rw [decURI, h]
  simp [utf8Decode_flat s]

/-! ### The URL-rewriting pattern of `onProxyRes`

The source rewrites eligible bodies with one global, case-insensitive regex
(`urlPattern` in `onProxyRes`): two prefix alternatives (an HTML attribute
`src|href|action` + `=` + quote, or CSS `url(` + optional quote), a negative
lookahead on skip-listed values, a lazy value group over the characters
outside whitespace/quotes/parentheses, and a closing group `\2|\3\s*\)` of
backreferences.  It is modelled by a direct-coded matcher for exactly this
pattern, following ECMAScript semantics:

* the prefix alternatives are tried in order; their first characters are
  distinct letters, so backtracking never moves between them;
* `\s*` before a fixed character is deterministic (a shorter run would end
  on a whitespace character which is not that fixed character);
* a backreference to a group that did not participate matches the empty
  string.  In the CSS branch group 2 is unset, so the first closing
  alternative succeeds immediately at the lazy minimum and the captured
  value is always empty (the source's replacer then returns the match
  unchanged).  In the HTML branch group 3 is unset, so the second closing
  alternative is `\s*\)`;
* in the CSS branch the optional quote and the trailing `\s*` backtrack
  when the lookahead fails.
-/

/-- The negative lookahead
`(?!data:|mailto:|#|javascript:|about:|(?:[a-zA-Z]+:)?\/\/)` (the `/i` flag
makes the literals case-insensitive). -/
def skipTest (s : List Char) : Bool :=
  startsWithCI "data:".data s || startsWithCI "mailto:".data s ||
  startsWithL "#".data s || startsWithCI "javascript:".data s ||
  startsWithCI "about:".data s ||
  startsWithL "//".data s ||
  (let run := s.takeWhile isAlphaChar
   decide (run ≠ []) && startsWithL [':', '/', '/'] (s.drop run.length))

/-- Result of one successful match of the URL pattern. -/
structure UrlMatch where
  html : Bool
  attr : List Char
  q2 : Char
  q3 : Option Char
  value : List Char
  txt : List Char
  rest : List Char

/-- `(src|href|action)` (case-insensitive), returning the attribute text as
written and the remainder. -/
def keywordSplit (s : List Char) : Option (List Char × List Char) :=
  if startsWithCI "src".data s then some (s.take 3, s.drop 3)
  else if startsWithCI "href".data s then some (s.take 4, s.drop 4)
  else if startsWithCI "action".data s then some (s.take 6, s.drop 6)
  else none

/-- The HTML prefix alternative `(src|href|action)\s*=\s*(['"`])`:
attribute, whitespace, `=`, whitespace, and a required quote. -/
def htmlPrefix (s : List Char) : Option (List Char × Char × List Char × List Char) :=
  match keywordSplit s with
  | none => none
  | some (kw, r1) =>
    let w1 := r1.takeWhile isWsChar
    match r1.dropWhile isWsChar with
    | [] => none
    | c :: r3 =>
      if c = '=' then
        let w2 := r3.takeWhile isWsChar
        match r3.dropWhile isWsChar with
        | [] => none
        | q :: r5 =>
          if isQuoteChar q then some (kw, q, kw ++ w1 ++ '=' :: (w2 ++ [q]), r5)
          else none
      else none

/-- The closing alternative `\s*\)` (that is, `\3\s*\)` with group 3
unset): maximal whitespace then a literal `)`.  Returns the consumed text
and the remainder. -/
def closeParen (s : List Char) : Option (List Char × List Char) :=
  match s.dropWhile isWsChar with
  | ')' :: r2 => some (s.takeWhile isWsChar ++ [')'], r2)
  | _ => none

/-- The lazy value group with its closers, in the HTML branch: at each
position first try the backreference `\2` (the opening quote), then
`\3\s*\)` with `\3` unset (i.e. `\s*\)`), and only then consume one value
character.  Returns (value, closing text, remainder). -/
def lazyVal (q2 : Char) : List Char → Option (List Char × List Char × List Char)
  | [] => none
  | c :: t =>
    if c = q2 then some ([], [c], t)
    else
      match closeParen (c :: t) with
      | some (cl, r2) => some ([], cl, r2)
      | none =>
        if isValChar c then
          match lazyVal q2 t with
          | some (v, cl, r) => some (c :: v, cl, r)
          | none => none
        else none

/-- The CSS prefix alternative `url\s*\(\s*` (before its optional quote):
returns `("url" ++ ws ++ "(", trailing ws, remainder)`. -/
def cssPrefixSplit (s : List Char) : Option (List Char × List Char × List Char) :=
  if startsWithCI "url".data s then
    let u := s.take 3
    let r1 := s.drop 3
    let w1 := r1.takeWhile isWsChar
    match r1.dropWhile isWsChar with
    | '(' :: r2 =>
      let w2 := r2.takeWhile isWsChar
      some (u ++ w1 ++ ['('], w2, r2.dropWhile isWsChar)
    | _ => none
  else none

/-- Backtracking over the CSS prefix's trailing `\s*` when the lookahead
fails: give back whitespace one character at a time until the lookahead
passes (it does at the first step, since no skip alternative begins with
whitespace).  `w2rev` is the reversed whitespace still held. -/
def cssShrink (pfx : List Char) : List Char → List Char → Option UrlMatch
  | [], _ => none
  | c :: w2r, rest =>
    if skipTest (c :: rest) = false then
      some ⟨false, [], quoteD, none, [], pfx ++ w2r.reverse, c :: rest⟩
    else cssShrink pfx w2r (c :: rest)

/-- The whole CSS branch.  Group 2 is unset here, so once the lookahead
passes the lazy group closes immediately with an empty value. -/
def cssAttempt (s : List Char) : Option UrlMatch :=
  match cssPrefixSplit s with
  | none => none
  | some (pfx, w2, rest0) =>
    match rest0 with
    | q :: r1 =>
      if isQuoteChar q then
        if skipTest r1 = false then
          some ⟨false, [], quoteD, some q, [], pfx ++ w2 ++ [q], r1⟩
        else if skipTest (q :: r1) = false then
          some ⟨false, [], quoteD, none, [], pfx ++ w2, q :: r1⟩
        else cssShrink pfx w2.reverse (q :: r1)
      else
        if skipTest rest0 = false then
          some ⟨false, [], quoteD, none, [], pfx ++ w2, rest0⟩
        else cssShrink pfx w2.reverse rest0
    | [] =>
      if skipTest [] = false then some ⟨false, [], quoteD, none, [], pfx ++ w2, []⟩
      else cssShrink pfx w2.reverse []

/-- The whole HTML branch: prefix, lookahead, lazy value. -/
def htmlAttempt (s : List Char) : Option UrlMatch :=
  match htmlPrefix s with
  | none => none
  | some (kw, q2, txt, r) =>
    if skipTest r then none
    else
      match lazyVal q2 r with
      | none => none
      | some (v, cl, rest) => some ⟨true, kw, q2, none, v, txt ++ v ++ cl, rest⟩

/-- One attempt of the whole pattern at the start of `s` (HTML alternative
first; the alternatives' first characters are disjoint, so no backtracking
crosses between them). -/
def matchAt (s : List Char) : Option UrlMatch :=
  match htmlAttempt s with
  | some m => some m
  | none => cssAttempt s

/-! #### A successful match consumes at least one character -/

theorem length_dropWhile_le (p : Char → Bool) (l : List Char) :
    (l.dropWhile p).length ≤ l.length :=
  (List.dropWhile_suffix p).length_le

theorem length_takeWhile_add_dropWhile (p : Char → Bool) (l : List Char) :
    (l.takeWhile p).length + (l.dropWhile p).length = l.length := by
  conv_rhs => rw [← List.takeWhile_append_dropWhile (p := p) (l := l)]
  rw [List.length_append]

theorem startsWithCI_le {p s : List Char} (h : startsWithCI p s = true) :
    p.length ≤ s.length := by
  simp only [startsWithCI, decide_eq_true_eq] at h
  have : (lcList (s.take p.length)).length = p.length := by rw [h]
  simp only [lcList, List.length_map, List.length_take] at this
  omega

theorem keywordSplit_rest {s kw r1 : List Char}
    (h : keywordSplit s = some (kw, r1)) : r1.length + 3 ≤ s.length := by
  unfold keywordSplit at h
  split_ifs at h with h1 h2 h3
  · have := startsWithCI_le h1
    cases h
    simp only [List.length_drop]
    simp only [List.length_cons] at this ⊢
    omega
  · have := startsWithCI_le h2
    cases h
    simp only [List.length_drop]
    simp only [List.length_cons] at this ⊢
    omega
  · have := startsWithCI_le h3
    cases h
    simp only [List.length_drop]
    simp only [List.length_cons] at this ⊢
    omega

theorem htmlPrefix_rest {s kw : List Char} {q2 : Char} {txt r : List Char}
    (h : htmlPrefix s = some (kw, q2, txt, r)) : r.length + 5 ≤ s.length := by
  unfold htmlPrefix at h
  cases hks : keywordSplit s with
  | none => rw [hks] at h; exact Option.noConfusion h
  | some p =>
    obtain ⟨kw', r1⟩ := p
    rw [hks] at h
    have hk := keywordSplit_rest hks
    simp only [] at h
    cases hd1 : r1.dropWhile isWsChar with
    | nil => rw [hd1] at h; exact Option.noConfusion h
    | cons c r3 =>
      rw [hd1] at h
      have hd1l : r3.length + 1 ≤ r1.length := by
        have := length_dropWhile_le isWsChar r1
        rw [hd1] at this
        simp only [List.length_cons] at this
        omega
      simp only [] at h
      split_ifs at h with hc
      cases hd2 : r3.dropWhile isWsChar with
      | nil => rw [hd2] at h; exact Option.noConfusion h
      | cons q r5 =>
        rw [hd2] at h
        have hd2l : r5.length + 1 ≤ r3.length := by
          have := length_dropWhile_le isWsChar r3
          rw [hd2] at this
          simp only [List.length_cons] at this
          omega
        simp only [] at h
        split_ifs at h with hq
        cases h
        omega

theorem closeParen_rest {s cl r2 : List Char}
    (h : closeParen s = some (cl, r2)) : r2.length < s.length := by
  unfold closeParen at h
  split at h
  · rename_i r2' heq
    cases h
    have hle := length_dropWhile_le isWsChar s
    rw [heq] at hle
    simp only [List.length_cons] at hle
    have hs : 0 < s.length := by
      cases s with
      | nil => simp [List.dropWhile] at heq
      | cons a t => simp
    omega
  · exact Option.noConfusion h

theorem lazyVal_rest {q2 : Char} {s v cl r : List Char}
    (h : lazyVal q2 s = some (v, cl, r)) : r.length < s.length := by
  induction s generalizing v cl r with
  | nil => exact Option.noConfusion h
  | cons c t ih =>
    unfold lazyVal at h
    by_cases hc : c = q2
    · rw [if_pos hc] at h
      cases h
      simp only [List.length_cons]
      omega
    · rw [if_neg hc] at h
      cases hcp : closeParen (c :: t) with
      | some p =>
        obtain ⟨cl0, r2⟩ := p
        rw [hcp] at h
        simp only [] at h
        cases h
        exact closeParen_rest hcp
      | none =>
        rw [hcp] at h
        simp only [] at h
        by_cases hv : isValChar c
        · rw [if_pos hv] at h
          cases hm : lazyVal q2 t with
          | none => rw [hm] at h; exact Option.noConfusion h
          | some p =>
            obtain ⟨v0, cl0, r0⟩ := p
            rw [hm] at h
            simp only [] at h
            cases h
            have := ih hm
            simp only [List.length_cons]
            omega
        · rw [if_neg hv] at h
          exact Option.noConfusion h

theorem cssShrink_rest {pfx : List Char} {w2r rest : List Char} {m : UrlMatch}
    (h : cssShrink pfx w2r rest = some m) :
    m.rest.length ≤ w2r.length + rest.length := by
  induction w2r generalizing rest with
  | nil => exact Option.noConfusion h
  | cons c w ih =>
    unfold cssShrink at h
    split_ifs at h with hs
    · cases h
      simp only [List.length_cons]
      omega
    · have := ih h
      simp only [List.length_cons] at this ⊢
      omega

theorem cssPrefixSplit_rest {s pfx w2 rest0 : List Char}
    (h : cssPrefixSplit s = some (pfx, w2, rest0)) :
    w2.length + rest0.length + 4 ≤ s.length := by
  unfold cssPrefixSplit at h
  split_ifs at h with hu
  simp only [] at h
  split at h
  · rename_i r2 heq
    cases h
    have hl := startsWithCI_le hu
    simp only [List.length_cons] at hl
    have hdl : r2.length + 1 ≤ (s.drop 3).length := by
      have hw := length_dropWhile_le isWsChar (s.drop 3)
      rw [heq] at hw
      simp only [List.length_cons] at hw
      omega
    have hsum := length_takeWhile_add_dropWhile isWsChar r2
    simp only [List.length_drop] at hdl
    omega
  · exact Option.noConfusion h

theorem cssAttempt_rest {s : List Char} {m : UrlMatch}
    (h : cssAttempt s = some m) : m.rest.length < s.length := by
  unfold cssAttempt at h
  cases hcp : cssPrefixSplit s with
  | none => rw [hcp] at h; exact Option.noConfusion h
  | some p =>
    obtain ⟨pfx, w2, rest0⟩ := p
    rw [hcp] at h
    have hlen := cssPrefixSplit_rest hcp
    simp only [] at h
    split at h
    · rename_i q r1
      by_cases hq : isQuoteChar q
      · rw [if_pos hq] at h
        by_cases h1 : skipTest r1 = false
        · rw [if_pos h1] at h
          cases h
          simp only [List.length_cons] at hlen ⊢
          omega
        · rw [if_neg h1] at h
          by_cases h2 : skipTest (q :: r1) = false
          · rw [if_pos h2] at h
            cases h
            simp only [List.length_cons] at hlen ⊢
            omega
          · rw [if_neg h2] at h
            have := cssShrink_rest h
            simp only [List.length_reverse, List.length_cons] at this hlen ⊢
            omega
      · rw [if_neg hq] at h
        by_cases h1 : skipTest (q :: r1) = false
        · rw [if_pos h1] at h
          cases h
          simp only [List.length_cons] at hlen ⊢
          omega
        · rw [if_neg h1] at h
          have := cssShrink_rest h
          simp only [List.length_reverse, List.length_cons] at this hlen ⊢
          omega
    · by_cases h0 : skipTest [] = false
      · rw [if_pos h0] at h
        cases h
        simp only [List.length_nil] at hlen ⊢
        omega
      · rw [if_neg h0] at h
        have := cssShrink_rest h
        simp only [List.length_reverse, List.length_nil] at this hlen ⊢
        omega

theorem htmlAttempt_rest {s : List Char} {m : UrlMatch}
    (h : htmlAttempt s = some m) : m.rest.length < s.length := by
  unfold htmlAttempt at h
  cases hhp : htmlPrefix s with
  | none => rw [hhp] at h; exact Option.noConfusion h
  | some p =>
    obtain ⟨kw, q2, txt, r⟩ := p
    rw [hhp] at h
    have hlen := htmlPrefix_rest hhp
    simp only [] at h
    split_ifs at h
    cases hlv : lazyVal q2 r with
    | none => rw [hlv] at h; exact Option.noConfusion h
    | some p2 =>
      obtain ⟨v, cl, rest⟩ := p2
      rw [hlv] at h
      have := lazyVal_rest hlv
      cases h
      show rest.length < s.length
      omega

theorem matchAt_rest {s : List Char} {m : UrlMatch}
    (h : matchAt s = some m) : m.rest.length < s.length := by
  unfold matchAt at h
  cases hha : htmlAttempt s with
  | none =>
    rw [hha] at h
    exact cssAttempt_rest h
  | some m0 =>
    rw [hha] at h
    cases h
    exact htmlAttempt_rest hha

/-! ### `new URL` — resolution and serialization

The source calls the WHATWG `URL` constructor in four places: validation
(`new URL(targetUrl)`), target parsing (`new URL(targetUrl)` for
origin/path), `Location` resolution (`new URL(loc, sourceOrigin)`), and the
replacer (`new URL(relativeUrl, targetUrl).href`).  The constructor is
modelled for ASCII inputs with `http`-like (special) or opaque-path
(non-special) schemes; IDNA, IPv6 literals, `%2e` dot segments and
tab/newline stripping are outside the modelled fragment.  `none` models the
constructor throwing `TypeError`. -/

def isSchemeChar (c : Char) : Bool :=
  isAlphaChar c || isDigitChar c || c = '+' || c = '-' || c = '.'

/-- Split a leading `scheme:`; the scheme is lower-cased as the parser does. -/
def parseSchemeSplit (s : List Char) : Option (List Char × List Char) :=
  match s with
  | [] => none
  | c :: _ =>
    if isAlphaChar c then
      let run := s.takeWhile isSchemeChar
      match s.drop run.length with
      | ':' :: r => some (lcList run, r)
      | _ => none
    else none

def isSpecialScheme (sch : List Char) : Bool :=
  sch = "http".data || sch = "https".data || sch = "ws".data || sch = "wss".data ||
  sch = "ftp".data || sch = "file".data

def defaultPort (sch : List Char) : Option Nat :=
  if sch = "http".data || sch = "ws".data then some 80
  else if sch = "https".data || sch = "wss".data then some 443
  else if sch = "ftp".data then some 21
  else none

/-- Characters admissible in a host (printable ASCII outside the WHATWG
forbidden-host set). -/
def validHostChar (c : Char) : Bool :=
  0x20 < c.toNat && c.toNat < 0x7F && c ≠ '#' && c ≠ '/' && c ≠ ':' && c ≠ '<' &&
  c ≠ '>' && c ≠ '?' && c ≠ '@' && c ≠ '[' && c ≠ '\\' && c ≠ ']' && c ≠ '^' && c ≠ '|'

/-- Parse `userinfo@host:port` into serialized `host[:port]` (userinfo is
dropped from `href`'s origin position only in the modelled fragment where
it is absent; ports are canonicalized, default ports dropped). -/
def parseHostPort (sch auth : List Char) : Option (List Char) :=
  let hostport := (auth.reverse.takeWhile (fun c => c ≠ '@')).reverse
  let host := hostport.takeWhile (fun c => c ≠ ':')
  let portPart := hostport.dropWhile (fun c => c ≠ ':')
  if host = [] then none
  else if !host.all validHostChar then none
  else
    let lhost := lcList host
    match portPart with
    | [] => some lhost
    | _ :: p =>
      if p = [] then some lhost
      else if !p.all isDigitChar then none
      else
        let pn := p.foldl (fun acc c => acc * 10 + (c.toNat - 48)) 0
        if pn > 65535 then none
        else if defaultPort sch = some pn then some lhost
        else some (lhost ++ ':' :: (Nat.repr pn).data)

/-- Split `path?query#fragment`. -/
def splitPQF (s : List Char) : List Char × Option (List Char) × Option (List Char) :=
  let p := s.takeWhile (fun c => c ≠ '?' && c ≠ '#')
  match s.dropWhile (fun c => c ≠ '?' && c ≠ '#') with
  | '?' :: r2 =>
    let q := r2.takeWhile (fun c => c ≠ '#')
    match r2.dropWhile (fun c => c ≠ '#') with
    | '#' :: f => (p, some q, some f)
    | _ => (p, some q, none)
  | '#' :: f => (p, none, some f)
  | _ => (p, none, none)

/-- Remove dot segments from a segment list (the accumulator is reversed);
a trailing `.`/`..` leaves a trailing slash, as in the WHATWG algorithm. -/
def normSegsAux : List (List Char) → List (List Char) → List (List Char)
  | [], acc => acc.reverse
  | [seg], acc =>
    if seg = "..".data then (([] : List Char) :: acc.drop 1).reverse
    else if seg = ".".data then (([] : List Char) :: acc).reverse
    else (seg :: acc).reverse
  | seg :: rest, acc =>
    if seg = "..".data then normSegsAux rest (acc.drop 1)
    else if seg = ".".data then normSegsAux rest acc
    else normSegsAux rest (seg :: acc)

/-- Normalize an absolute path (leading `/`): dot-segment removal. -/
def normalizePath (p : List Char) : List Char :=
  match p with
  | [] => ['/']
  | _ => '/' :: List.intercalate ['/'] (normSegsAux ((p.drop 1).splitOn '/') [])

/-- WHATWG path percent-encode set (ASCII fragment). -/
def pathOkChar (c : Char) : Bool :=
  0x20 < c.toNat && c.toNat < 0x7F && c ≠ quoteD && c ≠ '<' && c ≠ '>' && c ≠ quoteB &&
  c ≠ '{' && c ≠ '}' && c ≠ '?' && c ≠ '#'

/-- WHATWG special-query percent-encode set (ASCII fragment). -/
def queryOkChar (c : Char) : Bool :=
  0x20 < c.toNat && c.toNat < 0x7F && c ≠ quoteD && c ≠ '<' && c ≠ '>' && c ≠ '#' &&
  c ≠ quoteS

/-- WHATWG fragment percent-encode set (ASCII fragment). -/
def fragOkChar (c : Char) : Bool :=
  0x20 < c.toNat && c.toNat < 0x7F && c ≠ quoteD && c ≠ '<' && c ≠ '>' && c ≠ quoteB

def pctEncodeWith (ok : Char → Bool) (s : List Char) : List Char :=
  s.flatMap (fun c => if ok c then [c] else (utf8Bytes c.toNat).flatMap pctTriple)

/-- Serialize a special URL from components. -/
def serializeUrl (sch host path : List Char) (q f : Option (List Char)) : List Char :=
  sch ++ "://".data ++ host ++ pctEncodeWith pathOkChar path ++
  (match q with
   | some qq => '?' :: pctEncodeWith queryOkChar qq
   | none => []) ++
  (match f with
   | some ff => '#' :: pctEncodeWith fragOkChar ff
   | none => [])

/-- Parse `scheme://host/path?query` after the scheme of a special URL
(`r` is everything after `scheme:`; leading slashes of either kind are
consumed, as the special-authority-slashes state does). -/
def resolveAbsSpecial (sch r : List Char) : Option (List Char) :=
  let r1 := r.dropWhile (fun c => c = '/' || c = '\\')
  let auth := r1.takeWhile (fun c => c ≠ '/' && c ≠ '?' && c ≠ '#' && c ≠ '\\')
  let rest := r1.dropWhile (fun c => c ≠ '/' && c ≠ '?' && c ≠ '#' && c ≠ '\\')
  match parseHostPort sch auth with
  | none => none
  | some hostp =>
    let rest' := rest.map (fun c => if c = '\\' then '/' else c)
    let (p, q, f) := splitPQF rest'
    some (serializeUrl sch hostp (normalizePath p) q f)

/-- Decompose a special base URL into scheme, serialized host, path and
query (its fragment is irrelevant for resolution). -/
def parseBase (base : List Char) : Option (List Char × List Char × List Char × Option (List Char)) :=
  match parseSchemeSplit base with
  | none => none
  | some (sch, r) =>
    if isSpecialScheme sch then
      let r1 := r.dropWhile (fun c => c = '/' || c = '\\')
      let auth := r1.takeWhile (fun c => c ≠ '/' && c ≠ '?' && c ≠ '#' && c ≠ '\\')
      let rest := r1.dropWhile (fun c => c ≠ '/' && c ≠ '?' && c ≠ '#' && c ≠ '\\')
      match parseHostPort sch auth with
      | none => none
      | some hostp =>
        let (p, q, _f) := splitPQF rest
        some (sch, hostp, p, q)
    else none

/-- Resolve a scheme-less (or same-special-scheme) reference against a
special base. -/
def resolveNoScheme (rel base : List Char) : Option (List Char) :=
  match parseBase base with
  | none => none
  | some (bsch, bhost, bpath, bquery) =>
    let rel' := rel.map (fun c => if c = '\\' then '/' else c)
    match rel' with
    | [] => some (serializeUrl bsch bhost (normalizePath bpath) bquery none)
    | '#' :: f => some (serializeUrl bsch bhost (normalizePath bpath) bquery (some f))
    | '?' :: r2 =>
      let q := r2.takeWhile (fun c => c ≠ '#')
      let f := match r2.dropWhile (fun c => c ≠ '#') with
        | '#' :: ff => some ff
        | _ => none
      some (serializeUrl bsch bhost (normalizePath bpath) (some q) f)
    | '/' :: r2 =>
      if startsWithL "/".data r2 then resolveAbsSpecial bsch rel'
      else
        let (p, q, f) := splitPQF rel'
        some (serializeUrl bsch bhost (normalizePath p) q f)
    | _ =>
      let dir := (bpath.reverse.dropWhile (fun c => c ≠ '/')).reverse
      let dir' := if dir = [] then ['/'] else dir
      let (p, q, f) := splitPQF rel'
      some (serializeUrl bsch bhost (normalizePath (dir' ++ p)) q f)

/-- `new URL(rel, base).href` for the modelled fragment (`none` = the
constructor throws).  A special-scheme reference without `//` whose scheme
equals the base's is treated as relative, as the WHATWG parser does. -/
def resolveUrl (rel base : List Char) : Option (List Char) :=
  match parseSchemeSplit rel with
  | some (sch, r) =>
    if isSpecialScheme sch then
      match parseSchemeSplit base with
      | some (bsch, _) =>
        if bsch = sch && startsWithL "//".data r = false then resolveNoScheme r base
        else resolveAbsSpecial sch r
      | none => resolveAbsSpecial sch r
    else some (sch ++ ':' :: r)
  | none => resolveNoScheme rel base

/-- `new URL(s)` (no base) succeeds: models the validation in
`createProxyHandler` (`try { new URL(targetUrl) } catch { 400 }`). -/
def jsUrlParses (s : List Char) : Bool :=
  match parseSchemeSplit s with
  | none => false
  | some (sch, r) =>
    if isSpecialScheme sch then
      match resolveAbsSpecial sch r with
      | some _ => true
      | none => false
    else true

/-! ### The replacer and the global scan (`String.replace` with `/g`) -/

/-- Per-response rewrite context: the page's full target URL and the proxy
base `<own-host>/api/proxy?url=` (from `req.protocol`/`req.get('host')`). -/
structure RewriteCtx where
  target : List Char
  proxyBase : List Char

/-- The replacer function of the source (`(match, attr, htmlQuote,
cssQuote, relativeUrl) => ...`): an empty value returns the match
unchanged; otherwise the value is resolved against the target URL
(`new URL(relativeUrl, targetUrl).href` — a throw aborts the whole
`replace`, modelled by `none`) and re-emitted in proxied form. -/
def applyReplacer (ctx : RewriteCtx) (m : UrlMatch) : Option (List Char) :=
  if m.value = [] then some m.txt
  else
    match resolveUrl m.value ctx.target with
    | none => none
    | some abs =>
      let proxied := ctx.proxyBase ++ encURI abs
      if m.html then some (m.attr ++ '=' :: m.q2 :: (proxied ++ [m.q2]))
      else
        let q3 := match m.q3 with
          | some q => [q]
          | none => []
        some ("url(".data ++ q3 ++ proxied ++ q3 ++ [')'])

/-- ECMAScript `String.replace` with a global regex: find the leftmost
match, emit the replacement, continue after the consumed text (every
successful match here consumes at least one character). -/
def replaceScan (rep : UrlMatch → Option (List Char)) (s : List Char) : Option (List Char) :=
  match s with
  | [] => some []
  | c :: t =>
    match hm : matchAt (c :: t) with
    | none => (replaceScan rep t).map (fun r => c :: r)
    | some m =>
      match rep m with
      | none => none
      | some rtxt => (replaceScan rep m.rest).map (fun r => rtxt ++ r)
termination_by s.length
decreasing_by
  · simp only [List.length_cons]
    omega
  · exact matchAt_rest hm

/-- The first rewriting pass of `onProxyRes`:
`responseString.replace(urlPattern, replacer)`. -/
def rewriteUrls (ctx : RewriteCtx) (s : List Char) : Option (List Char) :=
  replaceScan (applyReplacer ctx) s

/-! ### The `srcset` pass (HTML only)

`/(srcset\s*=\s*)(['"`])(.*?)(\2)/gi`: group 1 is everything up to (not
including) the opening quote, group 2 the quote, group 3 a lazy run of
non-line-terminator characters, group 4 the closing backreference.  The
replacement is `` `${p1}${newSrcsetEntries}${quote}` `` — note the source
emits group 1, the rewritten value and ONE quote, dropping the opening
quote from the output. -/

def srcsetPrefix (s : List Char) : Option (List Char × Char × List Char) :=
  if startsWithCI "srcset".data s then
    let kw := s.take 6
    let r1 := s.drop 6
    let w1 := r1.takeWhile isWsChar
    match r1.dropWhile isWsChar with
    | '=' :: r2 =>
      let w2 := r2.takeWhile isWsChar
      match r2.dropWhile isWsChar with
      | q :: r3 => if isQuoteChar q then some (kw ++ w1 ++ '=' :: w2, q, r3) else none
      | [] => none
    | _ => none
  else none

/-- Lazy `(.*?)` up to the closing backreference: minimal characters until
the same quote, failing on a line terminator (the JS dot does not match
them). -/
def srcsetValue (q : Char) : List Char → Option (List Char × List Char)
  | [] => none
  | c :: t =>
    if c = q then some ([], t)
    else if c = '\n' || c = '\r' then none
    else
      match srcsetValue q t with
      | some (v, r) => some (c :: v, r)
      | none => none

/-- JS `trim` (ASCII whitespace fragment). -/
def trimBoth (s : List Char) : List Char :=
  ((s.dropWhile isWsChar).reverse.dropWhile isWsChar).reverse

/-- `entry.trim().split(/\s+/)`: whitespace-run split; the empty string
splits to `[""]`. -/
def wsWords (s : List Char) : List (List Char) :=
  if s = [] then [[]]
  else (List.splitOnP isWsChar s).filter (fun w => w ≠ [])

/-- `^(?:[a-z]+:)?\/\//i`, the skip test used in both the `srcset` entry
rewriting and the `Location` catch branch. -/
def schemeRelRegex (l : List Char) : Bool :=
  startsWithL "//".data l ||
  (let run := l.takeWhile isAlphaChar
   decide (run ≠ []) && startsWithL [':', '/', '/'] (l.drop run.length))

/-- One `srcset` candidate: rewrite its first whitespace-delimited token
unless it starts with `data:` (case-sensitive `startsWith` in the source)
or is absolute/protocol-relative; keep descriptors. -/
def srcsetEntry (ctx : RewriteCtx) (entry : List Char) : Option (List Char) :=
  let parts := wsWords (trimBoth entry)
  match parts with
  | [] => some entry
  | p0 :: ps =>
    if !(startsWithL "data:".data p0 || schemeRelRegex p0) then
      match resolveUrl p0 ctx.target with
      | none => none
      | some abs => some (List.intercalate [' '] ((ctx.proxyBase ++ encURI abs) :: ps))
    else some entry

/-- `srcsetValue.split(',').map(...).join(', ')`. -/
def rewriteSrcsetValue (ctx : RewriteCtx) (v : List Char) : Option (List Char) :=
  match (v.splitOn ',').mapM (srcsetEntry ctx) with
  | none => none
  | some es => some (List.intercalate ", ".data es)

theorem srcsetPrefix_rest {s p1 : List Char} {q : Char} {r : List Char}
    (h : srcsetPrefix s = some (p1, q, r)) : r.length + 8 ≤ s.length := by
  unfold srcsetPrefix at h
  split_ifs at h with hu
  have hl := startsWithCI_le hu
  simp only [List.length_cons] at hl
  simp only [] at h
  split at h
  · rename_i r2 heq
    have h1 : r2.length + 1 ≤ (s.drop 6).length := by
      have := length_dropWhile_le isWsChar (s.drop 6)
      rw [heq] at this
      simp only [List.length_cons] at this
      omega
    split at h
    · rename_i q' r3 heq2
      have h2 : r3.length + 1 ≤ r2.length := by
        have := length_dropWhile_le isWsChar r2
        rw [heq2] at this
        simp only [List.length_cons] at this
        omega
      split_ifs at h
      cases h
      simp only [List.length_drop] at h1
      omega
    · exact Option.noConfusion h
  · exact Option.noConfusion h

theorem srcsetValue_rest {q : Char} {s v r : List Char}
    (h : srcsetValue q s = some (v, r)) : r.length < s.length := by
  induction s generalizing v r with
  | nil => exact Option.noConfusion h
  | cons c t ih =>
    unfold srcsetValue at h
    by_cases hc : c = q
    · rw [if_pos hc] at h
      cases h
      simp only [List.length_cons]
      omega
    · rw [if_neg hc] at h
      split_ifs at h
      cases hm : srcsetValue q t with
      | none => rw [hm] at h; exact Option.noConfusion h
      | some p =>
        obtain ⟨v0, r0⟩ := p
        rw [hm] at h
        simp only [] at h
        cases h
        have := ih hm
        simp only [List.length_cons]
        omega

/-- The second rewriting pass of `onProxyRes` (HTML only):
`responseString.replace(srcsetPattern, ...)`. -/
def srcsetScan (ctx : RewriteCtx) (s : List Char) : Option (List Char) :=
  match s with
  | [] => some []
  | c :: t =>
    match hp : srcsetPrefix (c :: t) with
    | none => (srcsetScan ctx t).map (fun r => c :: r)
    | some (p1, q, r) =>
      match hv : srcsetValue q r with
      | none => (srcsetScan ctx t).map (fun r2 => c :: r2)
      | some (v, rest) =>
        match rewriteSrcsetValue ctx v with
        | none => none
        | some nv => (srcsetScan ctx rest).map (fun r2 => (p1 ++ nv ++ [q]) ++ r2)
termination_by s.length
decreasing_by
  · simp only [List.length_cons]
    omega
  · simp only [List.length_cons]
    omega
  · have h1 := srcsetPrefix_rest hp
    have h2 := srcsetValue_rest hv
    simp only [List.length_cons] at h1 ⊢
    omega

/-! ### The response-processing pipeline of `onProxyRes`

With `selfHandleResponse` the handler buffers eligible text bodies via the
`data`/`end` listeners, decodes, rewrites and re-emits them; everything
else is piped through.  A Node readable replays nothing once `end` has
fired, so the catch-branch `proxyRes.pipe(res)` runs against an
already-drained stream: `BodyStream`/`pipeRemaining` make that explicit. -/

/-- The upstream response (`proxyRes`): status, header mapping (keys are
lower-cased by Node) and raw body bytes. -/
structure Upstream where
  status : Nat
  headers : List (String × String)
  body : List Nat

/-- The three `zlib` decoders (`gunzipSync`, `inflateSync`,
`brotliDecompressSync`); `none` models a throw on corrupt input. -/
structure Decoders where
  gunzip : List Nat → Option (List Nat)
  inflate : List Nat → Option (List Nat)
  brotli : List Nat → Option (List Nat)

/-- `Buffer` charset operations: validity test (`Buffer.from('', cs)`),
text decoding (`buffer.toString(cs)`) and encoding (`Buffer.from(s, cs)`). -/
structure Codec where
  supported : String → Bool
  decode : String → List Nat → List Char
  encode : String → List Char → List Nat

def hGet (hs : List (String × String)) (k : String) : Option String :=
  (hs.find? (fun kv => kv.1 = k)).map (fun kv => kv.2)

def hSet (hs : List (String × String)) (k v : String) : List (String × String) :=
  if (hs.find? (fun kv => kv.1 = k)).isSome then
    hs.map (fun kv => if kv.1 = k then (k, v) else kv)
  else hs ++ [(k, v)]

def hDel (hs : List (String × String)) (k : String) : List (String × String) :=
  hs.filter (fun kv => kv.1 ≠ k)

/-- `String.prototype.includes`. -/
def containsSub (needle : List Char) : List Char → Bool
  | [] => startsWithL needle []
  | c :: t => startsWithL needle (c :: t) || containsSub needle t

/-- `${targetObj.protocol}//${targetObj.host}` for the parsed target. -/
def sourceOriginOf (target : List Char) : List Char :=
  match parseBase target with
  | some (sch, host, _, _) => sch ++ "://".data ++ host
  | none => []

/-- The `Location` rewrite (the `try`/`catch` ladder of `onProxyRes`):
resolve against the source origin; on a parse failure, prepend the origin
to a path-absolute value, leave an absolute/protocol-relative value as is,
and resolve anything else against the full target URL (a second parse
failure there would propagate out of the handler; it is approximated by
leaving the value). -/
def rewriteLocationValue (proxyBase sourceOrigin targetUrl loc : List Char) : List Char :=
  match resolveUrl loc sourceOrigin with
  | some u => proxyBase ++ encURI u
  | none =>
    if startsWithL "/".data loc then proxyBase ++ encURI (sourceOrigin ++ loc)
    else if schemeRelRegex loc then loc
    else
      match resolveUrl loc targetUrl with
      | some u => proxyBase ++ encURI u
      | none => loc

/-- `proxyRes.headers['location'] = newLocation` — the in-place update of
the upstream header mapping. -/
def rewriteLocationHeader (proxyBase sourceOrigin targetUrl : List Char)
    (hs : List (String × String)) : List (String × String) :=
  match hGet hs "location" with
  | none => hs
  | some loc =>
    hSet hs "location"
      (String.mk (rewriteLocationValue proxyBase sourceOrigin targetUrl loc.data))

/-- The charset extraction `contentType.match(/charset=([^;\s]+)/i)`
(the captured run contains no whitespace, so the source's `.trim()` is the
identity on it). -/
def charsetScan : List Char → Option (List Char)
  | [] => none
  | c :: t =>
    if startsWithCI "charset=".data (c :: t) then
      let run := ((c :: t).drop 8).takeWhile (fun ch => ch ≠ ';' && !isWsChar ch)
      if run = [] then charsetScan t else some run
    else charsetScan t

/-- Charset resolution: extract, validate against the codec, fall back to
`utf-8`. -/
def resolveCharset (codec : Codec) (ct : Option String) : String :=
  match ct with
  | none => "utf-8"
  | some c =>
    match charsetScan c.data with
    | none => "utf-8"
    | some cs => if codec.supported (String.mk cs) then String.mk cs else "utf-8"

/-- The content-encoding dispatch of the `try` block. -/
def decodeBody (d : Decoders) (enc : Option String) (b : List Nat) : Option (List Nat) :=
  match enc with
  | some e =>
    if e = "gzip" then d.gunzip b
    else if e = "deflate" then d.inflate b
    else if e = "br" then d.brotli b
    else some b
  | none => some b

/-- A buffered upstream body stream: once the `end` listener has run the
chunks are consumed and a later `pipe` delivers nothing. -/
structure BodyStream where
  chunks : List Nat
  consumed : Bool

def pipeRemaining (s : BodyStream) : List Nat := if s.consumed then [] else s.chunks

/-- The response written to the client. -/
structure Emitted where
  status : Nat
  headers : List (String × String)
  body : List Nat

/-- The whole `try` block of the `end` listener: decode, resolve charset,
decode text, both rewriting passes, re-encode.  `none` is a thrown
exception reaching the `catch`. -/
def processPipeline (ctx : RewriteCtx) (d : Decoders) (codec : Codec) (isHtml : Bool)
    (ct : String) (enc : Option String) (body : List Nat) : Option (List Nat) :=
  match decodeBody d enc body with
  | none => none
  | some decoded =>
    let cs := resolveCharset codec (some ct)
    let txt := codec.decode cs decoded
    match rewriteUrls ctx txt with
    | none => none
    | some r1 =>
      match (if isHtml then srcsetScan ctx r1 else some r1) with
      | none => none
      | some r2 => some (codec.encode cs r2)

/-- `onProxyRes` with `selfHandleResponse`: Location rewrite and cookie
stripping mutate the upstream header mapping; eligible text bodies are
buffered and rewritten (fresh response headers: only `Content-Type` and
`Content-Length`), with the catch branch re-emitting the mutated upstream
headers over the already-drained stream; everything else is piped through
with `writeHead(statusCode, headers)`. -/
def onProxyResModel (ctx : RewriteCtx) (d : Decoders) (codec : Codec)
    (removeCookies : Bool) (up : Upstream) : Emitted :=
  let sourceOrigin := sourceOriginOf ctx.target
  let hs1 := rewriteLocationHeader ctx.proxyBase sourceOrigin ctx.target up.headers
  let hs2 := if removeCookies then hDel hs1 "set-cookie" else hs1
  match hGet hs2 "content-type" with
  | some ct =>
    let isHtml := containsSub "text/html".data ct.data
    let isCss := containsSub "text/css".data ct.data
    let isJs := containsSub "application/javascript".data ct.data ||
      containsSub "text/javascript".data ct.data
    if isHtml || isCss || isJs then
      match processPipeline ctx d codec isHtml ct (hGet hs2 "content-encoding") up.body with
      | some newBytes =>
        ⟨up.status, [("Content-Type", ct), ("Content-Length", toString newBytes.length)],
          newBytes⟩
      | none => ⟨up.status, hs2, pipeRemaining ⟨up.body, true⟩⟩
    else ⟨up.status, hs2, pipeRemaining ⟨up.body, false⟩⟩
  | none => ⟨up.status, hs2, pipeRemaining ⟨up.body, false⟩⟩

/-! ### The request handler (`createProxyHandler`) and storage state

Storage (`DatabaseStorage`) is modelled as an explicit state record: the
visitors table, the append-only activity log (`createProxyRequest`) and the
user-input log (`logUserInput`).  Timestamp bookkeeping
(`updateVisitorLastSeen`, `lastSeen`) has no observable effect on the
modelled fields and is omitted. -/

/-- A JSON value in a request body (only the string/other distinction is
observable: `logUserInput` is called for string-valued fields only). -/
inductive JsonVal
  | str (s : String)
  | jbool (b : Bool)
  | jother

structure Visitor where
  id : Nat
  ip : String
  fingerprint : Option String
  blocked : Bool

/-- One `createProxyRequest` row (the modelled fields). -/
structure LogEntry where
  visitorId : Nat
  url : String
  status : String

structure Store where
  visitors : List Visitor
  log : List LogEntry
  inputs : List (Nat × String)

/-- `getVisitorByIpAndFingerprint`: with a fingerprint both fields must
match; without one the lookup is by IP alone (as in `DatabaseStorage`). -/
def getVisitorByIpAndFingerprint (st : Store) (ip : String) (fp : Option String) :
    Option Visitor :=
  match fp with
  | some f => st.visitors.find? (fun v => v.ip = ip && v.fingerprint = some f)
  | none => st.visitors.find? (fun v => v.ip = ip)

/-- `createVisitor` (fresh id, not blocked). -/
def createVisitor (st : Store) (ip : String) (fp : Option String) : Visitor × Store :=
  let v : Visitor := ⟨st.visitors.length + 1, ip, fp, false⟩
  (v, { st with visitors := st.visitors ++ [v] })

/-- `logProxyRequest`: find-or-create the visitor, then append exactly one
activity entry (its own `try`/`catch` swallows storage errors without
affecting control flow). -/
def logProxyRequest (st : Store) (ip : String) (fp : Option String)
    (url status : String) : Store :=
  match getVisitorByIpAndFingerprint st ip fp with
  | some v => { st with log := st.log ++ [⟨v.id, url, status⟩] }
  | none =>
    let p := createVisitor st ip fp
    { p.2 with log := p.2.log ++ [⟨p.1.id, url, status⟩] }

inductive Method
  | get
  | post

/-- The observable parts of the inbound request. -/
structure Req where
  method : Method
  queryUrl : Option String
  body : List (String × JsonVal)
  ip : String
  fingerprint : Option String

/-- `req.body.url` read as a string (a non-string value is not a usable
target). -/
def bodyUrl (req : Req) : Option String :=
  match req.body.find? (fun kv => kv.1 = "url") with
  | some (_, JsonVal.str s) => some s
  | _ => none

/-- `req.method === 'GET' ? req.query.url : req.body.url`. -/
def targetUrlOf (req : Req) : Option String :=
  match req.method with
  | .get => req.queryUrl
  | .post => bodyUrl req

/-- The handler's observable verdicts. -/
inductive HResp
  | missingUrl
  | invalidUrl
  | forbidden
  | postRedirect (url : String)
  | proxyError
  | proxied

/-- Handler outcome: the response kind and whether an upstream fetch was
dispatched (`createProxyMiddleware(options)(req, res, next)`). -/
structure HOut where
  resp : HResp
  fetched : Bool

/-- `createProxyHandler`'s request flow: missing/empty URL → 400; URL-parse
failure → 400; blocked visitor → one `blocked` log entry and 403; POST →
one `success` entry, form-input logging, and a redirect descriptor; GET →
one `success` entry then the proxy dispatch, where an upstream error
(`onError`) adds one `error` entry and answers 500. -/
def handleProxy (req : Req) (fetchFails : Bool) (st : Store) : HOut × Store :=
  match targetUrlOf req with
  | none => (⟨.missingUrl, false⟩, st)
  | some u =>
    if u = "" then (⟨.missingUrl, false⟩, st)
    else if jsUrlParses u.data = false then (⟨.invalidUrl, false⟩, st)
    else
      let blocked := match getVisitorByIpAndFingerprint st req.ip req.fingerprint with
        | some v => v.blocked
        | none => false
      if blocked then
        (⟨.forbidden, false⟩, logProxyRequest st req.ip req.fingerprint u "blocked")
      else
        match req.method with
        | .post =>
          let st1 := logProxyRequest st req.ip req.fingerprint u "success"
          let st2 := match getVisitorByIpAndFingerprint st1 req.ip req.fingerprint with
            | some v =>
              { st1 with
                inputs := st1.inputs ++ req.body.filterMap (fun kv =>
                  if kv.1 ≠ "url" then
                    match kv.2 with
                    | JsonVal.str s => some (v.id, s)
                    | _ => none
                  else none) }
            | none => st1
          (⟨.postRedirect u, false⟩, st2)
        | .get =>
          let st1 := logProxyRequest st req.ip req.fingerprint u "success"
          if fetchFails then
            (⟨.proxyError, true⟩, logProxyRequest st1 req.ip req.fingerprint u "error")
          else (⟨.proxied, true⟩, st1)

/-! ### Lemmas about the matcher -/

theorem isValChar_spec {c : Char} (h : isValChar c = true) :
    isWsChar c = false ∧ isQuoteChar c = false ∧ c ≠ '(' ∧ c ≠ ')' := by
  simp only [isValChar, Bool.and_eq_true, Bool.not_eq_true', decide_eq_true_eq] at h
  exact ⟨h.1.1.1, h.1.1.2, h.1.2, h.2⟩

theorem quote_cases {q : Char} (h : isQuoteChar q = true) :
    q = quoteD ∨ q = quoteS ∨ q = quoteB := by
  simp only [isQuoteChar, Bool.or_eq_true, decide_eq_true_eq] at h
  tauto

theorem lcChar_quote {q : Char} (h : isQuoteChar q = true) : lcChar q = q := by
  rcases quote_cases h with h | h | h <;> subst h <;> decide

theorem quote_not_ws {q : Char} (h : isQuoteChar q = true) : isWsChar q = false := by
  rcases quote_cases h with h | h | h <;> subst h <;> decide

theorem quote_not_alpha {q : Char} (h : isQuoteChar q = true) : isAlphaChar q = false := by
  rcases quote_cases h with h | h | h <;> subst h <;> decide

theorem ws_cases {c : Char} (h : isWsChar c = true) :
    c = ' ' ∨ c = '\t' ∨ c = '\n' ∨ c = '\r' ∨ c = Char.ofNat 11 ∨ c = Char.ofNat 12 := by
  simp only [isWsChar, Bool.or_eq_true, decide_eq_true_eq] at h
  tauto

theorem alpha_not_ws {c : Char} (h : isAlphaChar c = true) : isWsChar c = false := by
  cases hw : isWsChar c
  · rfl
  · rcases ws_cases hw with h2 | h2 | h2 | h2 | h2 | h2 <;> subst h2 <;> simp_all [isAlphaChar]

theorem alpha_ne_eq {c : Char} (h : isAlphaChar c = true) : c ≠ '=' := by
  intro he
  subst he
  simp [isAlphaChar] at h

theorem alpha_ne_paren {c : Char} (h : isAlphaChar c = true) : c ≠ '(' := by
  intro he
  subst he
  simp [isAlphaChar] at h

theorem lcChar_alpha_of {x y : Char} (h : lcChar x = y) (hy : isAlphaChar y = true) :
    isAlphaChar x = true := by
  unfold lcChar at h
  split_ifs at h with hc
  · simp only [Bool.and_eq_true, decide_eq_true_eq] at hc
    simp only [isAlphaChar, Bool.or_eq_true, Bool.and_eq_true, decide_eq_true_eq]
    right
    exact ⟨hc.1, hc.2⟩
  · rw [h]
    exact hy

theorem startsWithCI_head {p0 c : Char} {ps t : List Char}
    (h : startsWithCI (p0 :: ps) (c :: t) = true) : lcChar c = p0 := by
  simp only [startsWithCI, List.length_cons, List.take_succ_cons, lcList, List.map_cons,
    decide_eq_true_eq, List.cons.injEq] at h
  exact h.1

theorem startsWithCI_tail {p0 c : Char} {ps t : List Char}
    (h : startsWithCI (p0 :: ps) (c :: t) = true) : startsWithCI ps t = true := by
  simp only [startsWithCI, List.length_cons, List.take_succ_cons, lcList, List.map_cons,
    decide_eq_true_eq, List.cons.injEq] at h ⊢
  exact h.2

theorem startsWithCI_false_of_head {p0 c : Char} {ps t : List Char}
    (h : lcChar c ≠ p0) : startsWithCI (p0 :: ps) (c :: t) = false := by
  cases hb : startsWithCI (p0 :: ps) (c :: t)
  · rfl
  · exact absurd (startsWithCI_head hb) h

theorem startsWithL_head {p0 c : Char} {ps t : List Char}
    (h : startsWithL (p0 :: ps) (c :: t) = true) : c = p0 := by
  simp only [startsWithL, List.length_cons, List.take_succ_cons, decide_eq_true_eq,
    List.cons.injEq] at h
  exact h.1

theorem keywordSplit_none_of_head {c : Char} {t : List Char}
    (hs : lcChar c ≠ 's') (hh : lcChar c ≠ 'h') (ha : lcChar c ≠ 'a') :
    keywordSplit (c :: t) = none := by
  unfold keywordSplit
  rw [show ("src".data : List Char) = 's' :: "rc".data from rfl, startsWithCI_false_of_head hs]
  rw [show ("href".data : List Char) = 'h' :: "ref".data from rfl, startsWithCI_false_of_head hh]
  rw [show ("action".data : List Char) = 'a' :: "ction".data from rfl,
    startsWithCI_false_of_head ha]
  rfl

theorem cssPrefixSplit_none_of_head {c : Char} {t : List Char} (hu : lcChar c ≠ 'u') :
    cssPrefixSplit (c :: t) = none := by
  unfold cssPrefixSplit
  rw [show ("url".data : List Char) = 'u' :: "rl".data from rfl, startsWithCI_false_of_head hu]
  rfl

/-- At a position whose character cannot begin `src`, `href`, `action` or
`url` (case-insensitively), the pattern cannot match. -/
theorem matchAt_none_of_head {c : Char} {t : List Char}
    (hs : lcChar c ≠ 's') (hh : lcChar c ≠ 'h') (ha : lcChar c ≠ 'a')
    (hu : lcChar c ≠ 'u') : matchAt (c :: t) = none := by
  unfold matchAt htmlAttempt htmlPrefix cssAttempt
  rw [keywordSplit_none_of_head hs hh ha, cssPrefixSplit_none_of_head hu]

theorem matchAt_nil : matchAt [] = none := by
  unfold matchAt htmlAttempt htmlPrefix keywordSplit cssAttempt cssPrefixSplit
  rfl

theorem dropWhile_drop_of_all {p : Char → Bool} :
    ∀ (k : Nat) (s : List Char), (s.take k).all p = true →
      s.dropWhile p = (s.drop k).dropWhile p := by
  intro k
  induction k with
  | zero => intro s _; rfl
  | succ k ih =>
    intro s hall
    cases s with
    | nil => rfl
    | cons c t =>
      simp only [List.take_succ_cons, List.all_cons, Bool.and_eq_true] at hall
      rw [List.dropWhile_cons, if_pos hall.1, List.drop_succ_cons]
      exact ih t hall.2

theorem lcList_alpha {l m : List Char} (h : lcList l = m) (hm : m.all isAlphaChar = true) :
    l.all isAlphaChar = true := by
  induction l generalizing m with
  | nil => rfl
  | cons c t ih =>
    subst h
    simp only [lcList, List.map_cons, List.all_cons, Bool.and_eq_true] at hm ⊢
    exact ⟨lcChar_alpha_of rfl hm.1, ih rfl hm.2⟩

theorem keywordSplit_spec {s kw r1 : List Char} (h : keywordSplit s = some (kw, r1)) :
    ∃ k, kw = s.take k ∧ r1 = s.drop k ∧ (s.take k).all isAlphaChar = true := by
  unfold keywordSplit at h
  split_ifs at h with h1 h2 h3
  · cases h
    refine ⟨3, rfl, rfl, ?_⟩
    simp only [startsWithCI, decide_eq_true_eq] at h1
    exact lcList_alpha h1 (by decide)
  · cases h
    refine ⟨4, rfl, rfl, ?_⟩
    simp only [startsWithCI, decide_eq_true_eq] at h2
    exact lcList_alpha h2 (by decide)
  · cases h
    refine ⟨6, rfl, rfl, ?_⟩
    simp only [startsWithCI, decide_eq_true_eq] at h3
    exact lcList_alpha h3 (by decide)

theorem htmlPrefix_none_stopper {s : List Char}
    (h : ∀ c, ((s.dropWhile isAlphaChar).dropWhile isWsChar).head? = some c → c ≠ '=') :
    htmlPrefix s = none := by
  unfold htmlPrefix
  cases hks : keywordSplit s with
  | none => rfl
  | some p =>
    obtain ⟨kw, r1⟩ := p
    obtain ⟨k, hkw, hr1, hall⟩ := keywordSplit_spec hks
    simp only []
    cases hd : r1.dropWhile isWsChar with
    | nil => rfl
    | cons c r3 =>
      have hcne : c ≠ '=' := by
        cases hr1c : r1 with
        | nil =>
          rw [hr1c] at hd
          exact absurd hd (by simp [List.dropWhile])
        | cons x r1t =>
          by_cases hx : isAlphaChar x = true
          · rw [hr1c, List.dropWhile_cons, alpha_not_ws hx] at hd
            simp only [Bool.false_eq_true, if_false] at hd
            cases hd
            exact alpha_ne_eq hx
          · have h1 : s.dropWhile isAlphaChar = r1 := by
              rw [dropWhile_drop_of_all k s hall, ← hr1, hr1c, List.dropWhile_cons]
              simp [hx]
            exact h c (by rw [h1, hd]; rfl)
      simp only [hcne, if_false]

theorem cssPrefixSplit_none_stopper {s : List Char}
    (h : ∀ c, ((s.dropWhile isAlphaChar).dropWhile isWsChar).head? = some c → c ≠ '(') :
    cssPrefixSplit s = none := by
  unfold cssPrefixSplit
  by_cases hu : startsWithCI "url".data s = true
  · rw [if_pos hu]
    have hall : (s.take 3).all isAlphaChar = true := by
      simp only [startsWithCI, decide_eq_true_eq] at hu
      exact lcList_alpha hu (by decide)
    simp only []
    split
    · rename_i r2 heq
      exfalso
      have hp : ('(' : Char) ≠ '(' := by
        cases hr1c : (s.drop 3) with
        | nil =>
          rw [hr1c] at heq
          exact absurd heq (by simp [List.dropWhile])
        | cons x r1t =>
          by_cases hx : isAlphaChar x = true
          · rw [hr1c, List.dropWhile_cons, alpha_not_ws hx] at heq
            simp only [Bool.false_eq_true, if_false] at heq
            cases heq
            exact alpha_ne_paren hx
          · have h1 : s.dropWhile isAlphaChar = s.drop 3 := by
              rw [dropWhile_drop_of_all 3 s hall, hr1c, List.dropWhile_cons]
              simp [hx]
            exact h '(' (by rw [h1, heq]; rfl)
      exact hp rfl
    · rfl
  · rw [if_neg hu]

/-- At a position where the first non-letter character (after any
whitespace following the letters) is neither `=` nor `(`, the pattern
cannot match: both prefix alternatives require their letters to be
followed (modulo whitespace) by `=` or `(`. -/
theorem matchAt_none_stopper {s : List Char}
    (h : ∀ c, ((s.dropWhile isAlphaChar).dropWhile isWsChar).head? = some c →
      c ≠ '=' ∧ c ≠ '(') : matchAt s = none := by
  unfold matchAt htmlAttempt cssAttempt
  rw [htmlPrefix_none_stopper (fun c hc => (h c hc).1)]
  rw [cssPrefixSplit_none_stopper (fun c hc => (h c hc).2)]

/-! #### Lemmas about the negative lookahead -/

theorem startsWithL_false_of_head {p0 c : Char} {ps t : List Char} (h : c ≠ p0) :
    startsWithL (p0 :: ps) (c :: t) = false := by
  cases hb : startsWithL (p0 :: ps) (c :: t)
  · rfl
  · exact absurd (startsWithL_head hb) h

theorem startsWithL_le {p s : List Char} (h : startsWithL p s = true) :
    p.length ≤ s.length := by
  simp only [startsWithL, decide_eq_true_eq] at h
  have : (s.take p.length).length = p.length := by rw [h]
  simp only [List.length_take] at this
  omega

/-- A position whose character can begin none of the lookahead's
alternatives (not a letter lower-casing to `d`, `m`, `j`, `a`, not `#`,
not `/`, not a letter at all) is not skip-listed. -/
theorem skipTest_false_head {c : Char} {t : List Char}
    (hd : lcChar c ≠ 'd') (hm : lcChar c ≠ 'm') (hj : lcChar c ≠ 'j')
    (hab : lcChar c ≠ 'a') (hh : c ≠ '#') (hsl : c ≠ '/')
    (hal : isAlphaChar c = false) : skipTest (c :: t) = false := by
  unfold skipTest
  rw [show ("data:".data : List Char) = 'd' :: "ata:".data from rfl,
    startsWithCI_false_of_head hd]
  rw [show ("mailto:".data : List Char) = 'm' :: "ailto:".data from rfl,
    startsWithCI_false_of_head hm]
  rw [show ("javascript:".data : List Char) = 'j' :: "avascript:".data from rfl,
    startsWithCI_false_of_head hj]
  rw [show ("about:".data : List Char) = 'a' :: "bout:".data from rfl,
    startsWithCI_false_of_head hab]
  rw [show ("#".data : List Char) = '#' :: [] from rfl, startsWithL_false_of_head hh]
  rw [show ("//".data : List Char) = '/' :: "/".data from rfl, startsWithL_false_of_head hsl]
  simp only [List.takeWhile_cons, hal, Bool.false_eq_true, if_false]
  simp

theorem skipTest_false_quote {q : Char} {t : List Char} (hq : isQuoteChar q = true) :
    skipTest (q :: t) = false := by
  rcases quote_cases hq with h | h | h <;> subst h <;>
    exact skipTest_false_head (by decide) (by decide) (by decide) (by decide) (by decide)
      (by decide) (by decide)

theorem skipTest_false_ws {c : Char} {t : List Char} (hc : isWsChar c = true) :
    skipTest (c :: t) = false := by
  rcases ws_cases hc with h | h | h | h | h | h <;> subst h <;>
    exact skipTest_false_head (by decide) (by decide) (by decide) (by decide) (by decide)
      (by decide) (by decide)

theorem startsWithL_append_left {p v z : List Char} (h : startsWithL p v = true) :
    startsWithL p (v ++ z) = true := by
  have hle := startsWithL_le h
  simp only [startsWithL, decide_eq_true_eq] at h ⊢
  rw [List.take_append_of_le_length hle]
  exact h

theorem startsWithCI_append_left {p v z : List Char} (h : startsWithCI p v = true) :
    startsWithCI p (v ++ z) = true := by
  have hle := startsWithCI_le h
  simp only [startsWithCI, decide_eq_true_eq] at h ⊢
  rw [List.take_append_of_le_length hle]
  exact h

theorem takeWhile_append_stop {p : Char → Bool} {v z : List Char}
    (h : v.dropWhile p ≠ []) :
    (v ++ z).takeWhile p = v.takeWhile p ∧ (v ++ z).dropWhile p = v.dropWhile p ++ z := by
  constructor
  · rw [List.takeWhile_append]
    rw [if_neg]
    intro hlen
    have := length_takeWhile_add_dropWhile p v
    have hz : (v.dropWhile p).length = 0 := by omega
    exact h (List.length_eq_zero.mp hz)
  · rw [List.dropWhile_append]
    rw [if_neg]
    simp only [List.isEmpty_iff]
    exact h

/-- The lookahead is monotone under extending the input to the right. -/
theorem skipTest_append {v z : List Char} (h : skipTest v = true) :
    skipTest (v ++ z) = true := by
  unfold skipTest at h ⊢
  simp only [Bool.or_eq_true] at h ⊢
  rcases h with ((((((h | h) | h) | h) | h) | h) | h)
  · exact Or.inl (Or.inl (Or.inl (Or.inl (Or.inl (Or.inl (startsWithCI_append_left h))))))
  · exact Or.inl (Or.inl (Or.inl (Or.inl (Or.inl (Or.inr (startsWithCI_append_left h))))))
  · exact Or.inl (Or.inl (Or.inl (Or.inl (Or.inr (startsWithL_append_left h)))))
  · exact Or.inl (Or.inl (Or.inl (Or.inr (startsWithCI_append_left h))))
  · exact Or.inl (Or.inl (Or.inr (startsWithCI_append_left h)))
  · exact Or.inl (Or.inr (startsWithL_append_left h))
  · right
    simp only [Bool.and_eq_true, decide_eq_true_eq] at h ⊢
    obtain ⟨hne, hsw⟩ := h
    have hle := startsWithL_le hsw
    simp only [List.length_cons, List.length_nil] at hle
    have hstop : v.dropWhile isAlphaChar ≠ [] := by
      intro hempty
      have := length_takeWhile_add_dropWhile isAlphaChar v
      rw [hempty] at this
      simp only [List.length_nil] at this
      have hd := length_dropWhile_le isAlphaChar v
      simp only [List.length_drop] at hle
      omega
    obtain ⟨ht, _⟩ := takeWhile_append_stop (p := isAlphaChar) (z := z) hstop
    rw [ht]
    refine ⟨hne, ?_⟩
    have hrun : (v.takeWhile isAlphaChar).length ≤ v.length := by
      have := length_takeWhile_add_dropWhile isAlphaChar v
      omega
    rw [List.drop_append_of_le_length hrun]
    exact startsWithL_append_left hsw

theorem startsWithCI_append_cons {p v z : List Char} {q : Char}
    (h : startsWithCI p (v ++ q :: z) = true) :
    startsWithCI p v = true ∨ lcChar q ∈ p := by
  by_cases hle : p.length ≤ v.length
  · left
    simp only [startsWithCI, decide_eq_true_eq] at h ⊢
    rw [List.take_append_of_le_length hle] at h
    exact h
  · right
    simp only [startsWithCI, decide_eq_true_eq] at h
    rw [List.take_append_eq_append_take, List.take_of_length_le (by omega)] at h
    have hk : p.length - v.length = (p.length - v.length - 1) + 1 := by omega
    rw [hk, List.take_succ_cons] at h
    rw [← h]
    simp only [lcList, List.map_append, List.map_cons]
    exact List.mem_append_right _ (List.mem_cons_self _ _)

theorem startsWithL_append_cons {p v z : List Char} {q : Char}
    (h : startsWithL p (v ++ q :: z) = true) :
    startsWithL p v = true ∨ q ∈ p := by
  by_cases hle : p.length ≤ v.length
  · left
    simp only [startsWithL, decide_eq_true_eq] at h ⊢
    rw [List.take_append_of_le_length hle] at h
    exact h
  · right
    simp only [startsWithL, decide_eq_true_eq] at h
    rw [List.take_append_eq_append_take, List.take_of_length_le (by omega)] at h
    have hk : p.length - v.length = (p.length - v.length - 1) + 1 := by omega
    rw [hk, List.take_succ_cons] at h
    rw [← h]
    exact List.mem_append_right _ (List.mem_cons_self _ _)

theorem quote_mem_absurd {q : Char} (hq : isQuoteChar q = true) {p : List Char}
    (hp : p = "data:".data ∨ p = "mailto:".data ∨ p = "javascript:".data ∨
      p = "about:".data ∨ p = "#".data ∨ p = "//".data ∨ p = [':', '/', '/'])
    (h : q ∈ p) : False := by
  rcases quote_cases hq with e | e | e <;> subst e <;>
    rcases hp with e | e | e | e | e | e | e <;> subst e <;> revert h <;> decide

/-- A quote character following the value cannot make the lookahead fire:
if the lookahead matches `v ++ q :: z` it already matches `v`. -/
theorem skipTest_append_quote {v z : List Char} {q : Char} (hq : isQuoteChar q = true)
    (h : skipTest (v ++ q :: z) = true) : skipTest v = true := by
  unfold skipTest at h ⊢
  simp only [Bool.or_eq_true] at h ⊢
  have hqd : lcChar q = q := lcChar_quote hq
  rcases h with ((((((h | h) | h) | h) | h) | h) | h)
  · rcases startsWithCI_append_cons h with h2 | h2
    · exact Or.inl (Or.inl (Or.inl (Or.inl (Or.inl (Or.inl h2)))))
    · rw [hqd] at h2
      exact absurd h2 (fun hm => quote_mem_absurd hq (Or.inl rfl) hm)
  · rcases startsWithCI_append_cons h with h2 | h2
    · exact Or.inl (Or.inl (Or.inl (Or.inl (Or.inl (Or.inr h2)))))
    · rw [hqd] at h2
      exact absurd h2 (fun hm => quote_mem_absurd hq (Or.inr (Or.inl rfl)) hm)
  · rcases startsWithL_append_cons h with h2 | h2
    · exact Or.inl (Or.inl (Or.inl (Or.inl (Or.inr h2))))
    · exact absurd h2 (fun hm =>
        quote_mem_absurd hq (Or.inr (Or.inr (Or.inr (Or.inr (Or.inl rfl))))) hm)
  · rcases startsWithCI_append_cons h with h2 | h2
    · exact Or.inl (Or.inl (Or.inl (Or.inr h2)))
    · rw [hqd] at h2
      exact absurd h2 (fun hm => quote_mem_absurd hq (Or.inr (Or.inr (Or.inl rfl))) hm)
  · rcases startsWithCI_append_cons h with h2 | h2
    · exact Or.inl (Or.inl (Or.inr h2))
    · rw [hqd] at h2
      exact absurd h2 (fun hm =>
        quote_mem_absurd hq (Or.inr (Or.inr (Or.inr (Or.inl rfl)))) hm)
  · rcases startsWithL_append_cons h with h2 | h2
    · exact Or.inl (Or.inr h2)
    · exact absurd h2 (fun hm =>
        quote_mem_absurd hq (Or.inr (Or.inr (Or.inr (Or.inr (Or.inr (Or.inl rfl)))))) hm)
  · simp only [Bool.and_eq_true, decide_eq_true_eq] at h
    obtain ⟨hne, hsw⟩ := h
    have hqa : isAlphaChar q = false := quote_not_alpha hq
    by_cases hall : v.dropWhile isAlphaChar = []
    · exfalso
      have hvlen : (v.takeWhile isAlphaChar).length = v.length := by
        have := length_takeWhile_add_dropWhile isAlphaChar v
        rw [hall] at this
        simp only [List.length_nil] at this
        omega
      have hvall : v.takeWhile isAlphaChar = v :=
        (List.takeWhile_prefix _).sublist.eq_of_length hvlen
      have hrun : (v ++ q :: z).takeWhile isAlphaChar = v := by
        rw [List.takeWhile_append, if_pos (by rw [hvall])]
        rw [List.takeWhile_cons, hqa]
        simp
      rw [hrun] at hsw
      rw [List.drop_left] at hsw
      have hqc := startsWithL_head hsw
      subst hqc
      exact absurd hq (by decide)
    · obtain ⟨ht, _⟩ := takeWhile_append_stop (p := isAlphaChar) (z := q :: z) hall
      rw [ht] at hne hsw
      right
      simp only [Bool.and_eq_true, decide_eq_true_eq]
      refine ⟨hne, ?_⟩
      have hrunle : (v.takeWhile isAlphaChar).length ≤ v.length := by
        have := length_takeWhile_add_dropWhile isAlphaChar v
        omega
      rw [List.drop_append_of_le_length hrunle] at hsw
      rcases startsWithL_append_cons hsw with h2 | h2
      · exact h2
      · exact absurd h2 (fun hm =>
          quote_mem_absurd hq (Or.inr (Or.inr (Or.inr (Or.inr (Or.inr (Or.inr rfl)))))) hm)

/-! #### Stepping the global scan -/

theorem replaceScan_cons_none (rep : UrlMatch → Option (List Char)) {c : Char}
    {t : List Char} (h : matchAt (c :: t) = none) :
    replaceScan rep (c :: t) = (replaceScan rep t).map (fun r => c :: r) := by
  rw [replaceScan, h]

theorem replaceScan_match_step (rep : UrlMatch → Option (List Char)) {s : List Char}
    {m : UrlMatch} {rtxt : List Char} (hm : matchAt s = some m) (hr : rep m = some rtxt) :
    replaceScan rep s = (replaceScan rep m.rest).map (fun r => rtxt ++ r) := by
  cases s with
  | nil => rw [matchAt_nil] at hm; exact Option.noConfusion hm
  | cons c t =>
    rw [replaceScan, hm]
    simp only []
    rw [hr]

/-- Scanning past a prefix in which no match starts. -/
theorem replaceScan_prefix (rep : UrlMatch → Option (List Char)) (pre s : List Char)
    (h : ∀ i, i < pre.length → matchAt (pre.drop i ++ s) = none) :
    replaceScan rep (pre ++ s) = (replaceScan rep s).map (fun r => pre ++ r) := by
  induction pre with
  | nil =>
    simp only [List.nil_append]
    cases replaceScan rep s <;> simp
  | cons c pre ih =>
    have h0 : matchAt (c :: (pre ++ s)) = none := by
      have := h 0 (by simp)
      simpa using this
    rw [List.cons_append, replaceScan_cons_none rep h0]
    rw [ih (fun i hi => by
      have := h (i + 1) (by simp only [List.length_cons]; omega)
      simpa using this)]
    cases replaceScan rep s <;> simp

/-- The stopper property holds at every position of a chunk of value
characters not containing `=`, terminated by a non-letter, non-whitespace
character other than `=` and `(`. -/
theorem stopper_chunk {v : List Char} {y : Char} {rest : List Char}
    (hv : v.all isValChar = true) (hne : '=' ∉ v)
    (hya : isAlphaChar y = false) (hyw : isWsChar y = false)
    (hy1 : y ≠ '=') (hy2 : y ≠ '(') :
    ∀ c, (((v ++ y :: rest).dropWhile isAlphaChar).dropWhile isWsChar).head? = some c →
      c ≠ '=' ∧ c ≠ '(' := by
  induction v with
  | nil =>
    intro c hc
    rw [List.nil_append, List.dropWhile_cons, hya] at hc
    simp only [Bool.false_eq_true, if_false] at hc
    rw [List.dropWhile_cons, hyw] at hc
    simp only [Bool.false_eq_true, if_false, List.head?_cons, Option.some.injEq] at hc
    subst hc
    exact ⟨hy1, hy2⟩
  | cons x v ih =>
    intro c hc
    simp only [List.all_cons, Bool.and_eq_true] at hv
    have hxv := isValChar_spec hv.1
    by_cases hx : isAlphaChar x = true
    · rw [List.cons_append, List.dropWhile_cons, hx] at hc
      simp only [if_true] at hc
      exact ih hv.2 (fun hm => hne (List.mem_cons_of_mem _ hm)) c hc
    · rw [List.cons_append, List.dropWhile_cons] at hc
      simp only [hx, Bool.false_eq_true, if_false] at hc
      rw [List.dropWhile_cons, hxv.1] at hc
      simp only [Bool.false_eq_true, if_false, List.head?_cons, Option.some.injEq] at hc
      subst hc
      exact ⟨fun he => hne (he ▸ List.mem_cons_self _ _), hxv.2.2.1⟩

/-- Scanning past a chunk of value characters (no `=`) terminated by a
non-letter, non-whitespace character other than `=`/`(`: no match starts
inside the chunk. -/
theorem replaceScan_chunk (rep : UrlMatch → Option (List Char)) {v : List Char} {y : Char}
    {rest : List Char} (hv : v.all isValChar = true) (hne : '=' ∉ v)
    (hya : isAlphaChar y = false) (hyw : isWsChar y = false)
    (hy1 : y ≠ '=') (hy2 : y ≠ '(') :
    replaceScan rep (v ++ y :: rest) = (replaceScan rep (y :: rest)).map (fun r => v ++ r) := by
  induction v with
  | nil =>
    simp only [List.nil_append]
    cases replaceScan rep (y :: rest) <;> simp
  | cons x v ih =>
    simp only [List.all_cons, Bool.and_eq_true] at hv
    have hstep : matchAt (x :: (v ++ y :: rest)) = none := by
      apply matchAt_none_stopper
      intro c hc
      exact stopper_chunk (by simp [List.all_cons, hv.1, hv.2]) hne hya hyw hy1 hy2 c hc
    rw [List.cons_append, replaceScan_cons_none rep hstep]
    rw [ih hv.2 (fun hm => hne (List.mem_cons_of_mem _ hm))]
    cases replaceScan rep (y :: rest) <;> simp

/-! #### The match at an HTML attribute occurrence -/

theorem startsWithCI_of_eq {p attr rest : List Char} (hlen : attr.length = p.length)
    (h : lcList attr = p) : startsWithCI p (attr ++ rest) = true := by
  simp only [startsWithCI, decide_eq_true_eq]
  rw [← hlen, List.take_left]
  exact h

theorem startsWithCI_false_of_lc_take {p attr rest : List Char}
    (hle : p.length ≤ attr.length) (h : (lcList attr).take p.length ≠ p) :
    startsWithCI p (attr ++ rest) = false := by
  cases hb : startsWithCI p (attr ++ rest)
  · rfl
  · exfalso
    simp only [startsWithCI, decide_eq_true_eq] at hb
    rw [List.take_append_of_le_length hle] at hb
    simp only [lcList] at hb h
    rw [List.map_take] at hb
    exact h hb

theorem lcList_length {l : List Char} : (lcList l).length = l.length := by
  simp [lcList]

theorem keywordSplit_attr {attr rest : List Char}
    (h : lcList attr = "src".data ∨ lcList attr = "href".data ∨
      lcList attr = "action".data) :
    keywordSplit (attr ++ rest) = some (attr, rest) := by
  unfold keywordSplit
  rcases h with h | h | h
  · have hlen : attr.length = 3 := by
      rw [← lcList_length, h]
      rfl
    rw [if_pos (startsWithCI_of_eq (by rw [hlen]; rfl) h), List.take_left' hlen,
      List.drop_left' hlen]
  · have hlen : attr.length = 4 := by
      rw [← lcList_length, h]
      rfl
    rw [startsWithCI_false_of_lc_take (by rw [show ("src".data).length = 3 from rfl]; omega)
      (by rw [h]; decide)]
    simp only [Bool.false_eq_true, if_false]
    rw [if_pos (startsWithCI_of_eq (by rw [hlen]; rfl) h), List.take_left' hlen,
      List.drop_left' hlen]
  · have hlen : attr.length = 6 := by
      rw [← lcList_length, h]
      rfl
    rw [startsWithCI_false_of_lc_take (by rw [show ("src".data).length = 3 from rfl]; omega)
      (by rw [h]; decide)]
    simp only [Bool.false_eq_true, if_false]
    rw [startsWithCI_false_of_lc_take (by rw [show ("href".data).length = 4 from rfl]; omega)
      (by rw [h]; decide)]
    simp only [Bool.false_eq_true, if_false]
    rw [if_pos (startsWithCI_of_eq (by rw [hlen]; rfl) h), List.take_left' hlen,
      List.drop_left' hlen]

theorem closeParen_none_of_val {c : Char} {t : List Char} (hc : isValChar c = true) :
    closeParen (c :: t) = none := by
  have hspec := isValChar_spec hc
  unfold closeParen
  rw [List.dropWhile_cons, hspec.1]
  simp only [Bool.false_eq_true, if_false]
  split
  · rename_i r2 heq
    exact absurd (List.cons.injEq .. ▸ heq).1 hspec.2.2.2
  · rfl

theorem lazyVal_value {q : Char} {v post : List Char} (hq : isQuoteChar q = true)
    (hv : v.all isValChar = true) :
    lazyVal q (v ++ q :: post) = some (v, [q], post) := by
  induction v with
  | nil =>
    rw [List.nil_append]
    unfold lazyVal
    rw [if_pos rfl]
  | cons c v ih =>
    simp only [List.all_cons, Bool.and_eq_true] at hv
    have hspec := isValChar_spec hv.1
    have hcq : c ≠ q := by
      intro he
      rw [he] at hspec
      rw [hq] at hspec
      exact Bool.noConfusion hspec.2.1
    rw [List.cons_append]
    unfold lazyVal
    rw [if_neg hcq, closeParen_none_of_val hv.1]
    simp only []
    rw [if_pos hv.1, ih hv.2]

theorem matchAt_attr {attr v post : List Char} {q : Char}
    (hattr : lcList attr = "src".data ∨ lcList attr = "href".data ∨
      lcList attr = "action".data)
    (hq : isQuoteChar q = true) (hv : v.all isValChar = true)
    (hskip : skipTest (v ++ q :: post) = false) :
    matchAt (attr ++ '=' :: q :: (v ++ q :: post)) =
      some ⟨true, attr, q, none, v, attr ++ '=' :: q :: (v ++ [q]), post⟩ := by
  unfold matchAt htmlAttempt htmlPrefix
  rw [keywordSplit_attr hattr]
  simp only []
  rw [List.dropWhile_cons]
  simp only [show isWsChar '=' = false from rfl, Bool.false_eq_true, if_false,
    if_true]
  rw [List.dropWhile_cons]
  simp only [quote_not_ws hq, Bool.false_eq_true, if_false]
  rw [if_pos hq]
  simp only [hskip, Bool.false_eq_true, if_false]
  rw [lazyVal_value hq hv]
  simp only [List.takeWhile_cons, show isWsChar '=' = false from rfl,
    quote_not_ws hq, Bool.false_eq_true, if_false, List.nil_append,
    List.append_nil, List.append_assoc, List.cons_append, List.singleton_append]

theorem matchAt_attr_skip {attr v post : List Char} {q : Char}
    (hattr : lcList attr = "src".data ∨ lcList attr = "href".data ∨
      lcList attr = "action".data)
    (hq : isQuoteChar q = true)
    (hskip : skipTest (v ++ q :: post) = true) :
    matchAt (attr ++ '=' :: q :: (v ++ q :: post)) = none := by
  have hhead : ∃ a t, attr = a :: t ∧ lcChar a ≠ 'u' := by
    rcases hattr with h | h | h <;>
      (cases attr with
       | nil => exact absurd h (by decide)
       | cons a t =>
         refine ⟨a, t, rfl, ?_⟩
         have := congrArg (fun l => l.headD ' ') h
         simp only [lcList, List.map_cons, List.headD_cons] at this
         rw [this]
         decide)
  unfold matchAt htmlAttempt htmlPrefix
  rw [keywordSplit_attr hattr]
  simp only []
  rw [List.dropWhile_cons]
  simp only [show isWsChar '=' = false from rfl, Bool.false_eq_true, if_false]
  simp only [if_true]
  rw [List.dropWhile_cons]
  simp only [quote_not_ws hq, Bool.false_eq_true, if_false]
  rw [if_pos hq]
  simp only [hskip, if_true]
  obtain ⟨a, t, hat, hau⟩ := hhead
  rw [hat, List.cons_append]
  unfold cssAttempt
  rw [cssPrefixSplit_none_of_head hau]

theorem quote_head_nomatch {q : Char} (hq : isQuoteChar q = true) (t : List Char) :
    matchAt (q :: t) = none := by
  rcases quote_cases hq with h | h | h <;> subst h <;>
    exact matchAt_none_of_head (by decide) (by decide) (by decide) (by decide)

theorem quote_ne_eq {q : Char} (h : isQuoteChar q = true) : q ≠ '=' := by
  rcases quote_cases h with h | h | h <;> subst h <;> decide

theorem quote_ne_paren {q : Char} (h : isQuoteChar q = true) : q ≠ '(' := by
  rcases quote_cases h with h | h | h <;> subst h <;> decide

/-- The scan at an HTML attribute occurrence whose value resolves: it emits
the proxied rewrite and continues after the closing quote. -/
theorem replaceScan_attr_rw (ctx : RewriteCtx) {attr v post abs : List Char} {q : Char}
    (hattr : lcList attr = "src".data ∨ lcList attr = "href".data ∨
      lcList attr = "action".data)
    (hq : isQuoteChar q = true) (hv : v.all isValChar = true) (hne : v ≠ [])
    (hskip : skipTest (v ++ q :: post) = false)
    (habs : resolveUrl v ctx.target = some abs) :
    rewriteUrls ctx (attr ++ '=' :: q :: (v ++ q :: post)) =
      (rewriteUrls ctx post).map
        (fun r => attr ++ '=' :: q :: (ctx.proxyBase ++ encURI abs ++ q :: r)) := by
  have hm := matchAt_attr hattr hq hv hskip
  have hrep : applyReplacer ctx
      ⟨true, attr, q, none, v, attr ++ '=' :: q :: (v ++ [q]), post⟩ =
      some (attr ++ '=' :: q :: ((ctx.proxyBase ++ encURI abs) ++ [q])) := by
    unfold applyReplacer
    simp only []
    rw [if_neg hne, habs]
    simp only [if_true]
  unfold rewriteUrls
  rw [replaceScan_match_step _ hm hrep]
  simp only []
  cases replaceScan (applyReplacer ctx) post <;>
    simp [List.append_assoc]

/-- The scan at an HTML attribute occurrence whose value trips the negative
lookahead: the whole span is copied through unchanged. -/
theorem replaceScan_attr_keep (rep : UrlMatch → Option (List Char))
    {attr v post : List Char} {q : Char}
    (hattr : lcList attr = "src".data ∨ lcList attr = "href".data ∨
      lcList attr = "action".data)
    (hq : isQuoteChar q = true) (hv : v.all isValChar = true) (hne : '=' ∉ v)
    (hskip : skipTest v = true) :
    replaceScan rep (attr ++ '=' :: q :: (v ++ q :: post)) =
      (replaceScan rep post).map (fun r => attr ++ '=' :: q :: (v ++ q :: r)) := by
  have hskip2 : skipTest (v ++ q :: post) = true := skipTest_append hskip
  have hqa := quote_not_alpha hq
  have hqw := quote_not_ws hq
  have hqe := quote_ne_eq hq
  have hqp := quote_ne_paren hq
  have hchunk : replaceScan rep (v ++ q :: post) =
      (replaceScan rep (q :: post)).map (fun r => v ++ r) :=
    replaceScan_chunk rep hv hne hqa hqw hqe hqp
  have hqstep : replaceScan rep (q :: post) =
      (replaceScan rep post).map (fun r => q :: r) :=
    replaceScan_cons_none rep (quote_head_nomatch hq post)
  rcases hattr with h | h | h
  · have hlen : attr.length = 3 := by
      have := congrArg List.length h
      simpa [lcList] using this
    match attr, hlen with
    | [a, b, c], _ =>
      simp only [lcList, List.map_cons, List.map_nil] at h
      have ha : lcChar a = 's' := by
        have := congrArg (fun l => l.headD ' ') h; simpa using this
      have hb : lcChar b = 'r' := by
        have := congrArg (fun l => (l.drop 1).headD ' ') h; simpa using this
      have hc : lcChar c = 'c' := by
        have := congrArg (fun l => (l.drop 2).headD ' ') h; simpa using this
      have h0 : matchAt (a :: b :: c :: '=' :: q :: (v ++ q :: post)) = none :=
        @matchAt_attr_skip [a, b, c] v post q (Or.inl (by
          simp [lcList, ha, hb, hc])) hq hskip2
      show replaceScan rep (a :: b :: c :: '=' :: q :: (v ++ q :: post)) = _
      rw [replaceScan_cons_none rep h0,
        replaceScan_cons_none rep (matchAt_none_of_head (by rw [hb]; decide)
          (by rw [hb]; decide) (by rw [hb]; decide) (by rw [hb]; decide)),
        replaceScan_cons_none rep (matchAt_none_of_head (by rw [hc]; decide)
          (by rw [hc]; decide) (by rw [hc]; decide) (by rw [hc]; decide)),
        replaceScan_cons_none rep (matchAt_none_of_head (by decide) (by decide)
          (by decide) (by decide)),
        replaceScan_cons_none rep (quote_head_nomatch hq _),
        hchunk, hqstep]
      cases replaceScan rep post <;> simp
  · have hlen : attr.length = 4 := by
      have := congrArg List.length h
      simpa [lcList] using this
    match attr, hlen with
    | [a, b, c, d], _ =>
      simp only [lcList, List.map_cons, List.map_nil] at h
      have ha : lcChar a = 'h' := by
        have := congrArg (fun l => l.headD ' ') h; simpa using this
      have hb : lcChar b = 'r' := by
        have := congrArg (fun l => (l.drop 1).headD ' ') h; simpa using this
      have hc : lcChar c = 'e' := by
        have := congrArg (fun l => (l.drop 2).headD ' ') h; simpa using this
      have hd : lcChar d = 'f' := by
        have := congrArg (fun l => (l.drop 3).headD ' ') h; simpa using this
      have h0 : matchAt (a :: b :: c :: d :: '=' :: q :: (v ++ q :: post)) = none :=
        @matchAt_attr_skip [a, b, c, d] v post q (Or.inr (Or.inl (by
          simp [lcList, ha, hb, hc, hd]))) hq hskip2
      show replaceScan rep (a :: b :: c :: d :: '=' :: q :: (v ++ q :: post)) = _
      rw [replaceScan_cons_none rep h0,
        replaceScan_cons_none rep (matchAt_none_of_head (by rw [hb]; decide)
          (by rw [hb]; decide) (by rw [hb]; decide) (by rw [hb]; decide)),
        replaceScan_cons_none rep (matchAt_none_of_head (by rw [hc]; decide)
          (by rw [hc]; decide) (by rw [hc]; decide) (by rw [hc]; decide)),
        replaceScan_cons_none rep (matchAt_none_of_head (by rw [hd]; decide)
          (by rw [hd]; decide) (by rw [hd]; decide) (by rw [hd]; decide)),
        replaceScan_cons_none rep (matchAt_none_of_head (by decide) (by decide)
          (by decide) (by decide)),
        replaceScan_cons_none rep (quote_head_nomatch hq _),
        hchunk, hqstep]
      cases replaceScan rep post <;> simp
  · have hlen : attr.length = 6 := by
      have := congrArg List.length h
      simpa [lcList] using this
    match attr, hlen with
    | [a, b, c, d, e, f], _ =>
      simp only [lcList, List.map_cons, List.map_nil] at h
      have ha : lcChar a = 'a' := by
        have := congrArg (fun l => l.headD ' ') h; simpa using this
      have hb : lcChar b = 'c' := by
        have := congrArg (fun l => (l.drop 1).headD ' ') h; simpa using this
      have hc : lcChar c = 't' := by
        have := congrArg (fun l => (l.drop 2).headD ' ') h; simpa using this
      have hd : lcChar d = 'i' := by
        have := congrArg (fun l => (l.drop 3).headD ' ') h; simpa using this
      have he : lcChar e = 'o' := by
        have := congrArg (fun l => (l.drop 4).headD ' ') h; simpa using this
      have hf : lcChar f = 'n' := by
        have := congrArg (fun l => (l.drop 5).headD ' ') h; simpa using this
      have h0 : matchAt (a :: b :: c :: d :: e :: f :: '=' :: q :: (v ++ q :: post)) = none :=
        @matchAt_attr_skip [a, b, c, d, e, f] v post q (Or.inr (Or.inr (by
          simp [lcList, ha, hb, hc, hd, he, hf]))) hq hskip2
      show replaceScan rep (a :: b :: c :: d :: e :: f :: '=' :: q :: (v ++ q :: post)) = _
      rw [replaceScan_cons_none rep h0,
        replaceScan_cons_none rep (matchAt_none_of_head (by rw [hb]; decide)
          (by rw [hb]; decide) (by rw [hb]; decide) (by rw [hb]; decide)),
        replaceScan_cons_none rep (matchAt_none_of_head (by rw [hc]; decide)
          (by rw [hc]; decide) (by rw [hc]; decide) (by rw [hc]; decide)),
        replaceScan_cons_none rep (matchAt_none_of_head (by rw [hd]; decide)
          (by rw [hd]; decide) (by rw [hd]; decide) (by rw [hd]; decide)),
        replaceScan_cons_none rep (matchAt_none_of_head (by rw [he]; decide)
          (by rw [he]; decide) (by rw [he]; decide) (by rw [he]; decide)),
        replaceScan_cons_none rep (matchAt_none_of_head (by rw [hf]; decide)
          (by rw [hf]; decide) (by rw [hf]; decide) (by rw [hf]; decide)),
        replaceScan_cons_none rep (matchAt_none_of_head (by decide) (by decide)
          (by decide) (by decide)),
        replaceScan_cons_none rep (quote_head_nomatch hq _),
        hchunk, hqstep]
      cases replaceScan rep post <;> simp

theorem val_not_ws {c : Char} (h : isValChar c = true) : isWsChar c = false :=
  (isValChar_spec h).1

theorem val_not_quote {c : Char} (h : isValChar c = true) : isQuoteChar c = false :=
  (isValChar_spec h).2.1

/-- A quoted CSS occurrence whose value trips the lookahead: group 2 is
unset, so the lazy group closes immediately after the opening quote with an
empty value; the matched text is returned unchanged. -/
theorem cssAttempt_quoted {q : Char} {v post : List Char}
    (hq : isQuoteChar q = true)
    (hskip : skipTest (v ++ q :: ')' :: post) = true) :
    cssAttempt ('u' :: 'r' :: 'l' :: '(' :: q :: (v ++ q :: ')' :: post)) =
      some ⟨false, [], quoteD, none, [], "url(".data, q :: (v ++ q :: ')' :: post)⟩ := by
  unfold cssAttempt cssPrefixSplit
  rw [if_pos (show startsWithCI "url".data
    ('u' :: 'r' :: 'l' :: '(' :: q :: (v ++ q :: ')' :: post)) = true from rfl)]
  simp only [List.take_succ_cons, List.take_zero, List.drop_succ_cons, List.drop_zero,
    List.takeWhile_cons, List.dropWhile_cons, show isWsChar '(' = false from rfl,
    quote_not_ws hq, Bool.false_eq_true, if_false]
  simp only [if_pos hq, hskip, Bool.true_eq_false, if_false]
  rw [skipTest_false_quote hq]
  simp only [if_true]
  simp

/-- An unquoted CSS occurrence whose value trips the lookahead: the optional
quote group matched empty, so backreference 3 is the empty string and the
whole CSS alternative fails at this position. -/
theorem cssAttempt_unquoted {c : Char} {v post : List Char}
    (hc : isValChar c = true)
    (hskip : skipTest (c :: (v ++ ')' :: post)) = true) :
    cssAttempt ('u' :: 'r' :: 'l' :: '(' :: c :: (v ++ ')' :: post)) = none := by
  unfold cssAttempt cssPrefixSplit
  rw [if_pos (show startsWithCI "url".data
    ('u' :: 'r' :: 'l' :: '(' :: c :: (v ++ ')' :: post)) = true from rfl)]
  simp only [List.take_succ_cons, List.take_zero, List.drop_succ_cons, List.drop_zero,
    List.takeWhile_cons, List.dropWhile_cons, show isWsChar '(' = false from rfl,
    val_not_ws hc, Bool.false_eq_true, if_false]
  simp only [val_not_quote hc, Bool.false_eq_true, if_false, hskip,
    Bool.true_eq_false, if_true]
  unfold cssShrink
  rfl

theorem matchAt_css_quoted {q : Char} {v post : List Char}
    (hq : isQuoteChar q = true)
    (hskip : skipTest (v ++ q :: ')' :: post) = true) :
    matchAt ('u' :: 'r' :: 'l' :: '(' :: q :: (v ++ q :: ')' :: post)) =
      some ⟨false, [], quoteD, none, [], "url(".data, q :: (v ++ q :: ')' :: post)⟩ := by
  unfold matchAt htmlAttempt htmlPrefix
  rw [keywordSplit_none_of_head (by decide) (by decide) (by decide)]
  simp only []
  rw [cssAttempt_quoted hq hskip]

theorem matchAt_css_unquoted {c : Char} {v post : List Char}
    (hc : isValChar c = true)
    (hskip : skipTest (c :: (v ++ ')' :: post)) = true) :
    matchAt ('u' :: 'r' :: 'l' :: '(' :: c :: (v ++ ')' :: post)) = none := by
  unfold matchAt htmlAttempt htmlPrefix
  rw [keywordSplit_none_of_head (by decide) (by decide) (by decide)]
  simp only []
  rw [cssAttempt_unquoted hc hskip]

/-- The scan over a quoted CSS occurrence whose value trips the lookahead:
the whole span is copied through unchanged. -/
theorem replaceScan_css_quoted (ctx : RewriteCtx) {v post : List Char} {q : Char}
    (hq : isQuoteChar q = true) (hv : v.all isValChar = true) (hne : '=' ∉ v)
    (hskipv : skipTest v = true) :
    rewriteUrls ctx ('u' :: 'r' :: 'l' :: '(' :: q :: (v ++ q :: ')' :: post)) =
      (rewriteUrls ctx post).map
        (fun r => 'u' :: 'r' :: 'l' :: '(' :: q :: (v ++ q :: ')' :: r)) := by
  have hskip2 : skipTest (v ++ q :: ')' :: post) = true := skipTest_append hskipv
  have hm := @matchAt_css_quoted q v post hq hskip2
  have hrep : applyReplacer ctx
      ⟨false, [], quoteD, none, [], "url(".data, q :: (v ++ q :: ')' :: post)⟩ =
      some "url(".data := rfl
  unfold rewriteUrls
  rw [replaceScan_match_step _ hm hrep]
  simp only []
  rw [replaceScan_cons_none _ (quote_head_nomatch hq _),
    replaceScan_chunk _ hv hne (quote_not_alpha hq) (quote_not_ws hq)
      (quote_ne_eq hq) (quote_ne_paren hq),
    replaceScan_cons_none _ (quote_head_nomatch hq _),
    replaceScan_cons_none _ (matchAt_none_of_head (c := ')') (by decide) (by decide)
      (by decide) (by decide))]
  cases replaceScan (applyReplacer ctx) post <;> simp

/-- The scan over an unquoted CSS occurrence whose value trips the
lookahead: no match starts anywhere in the span, which is copied through
unchanged. -/
theorem replaceScan_css_unquoted (ctx : RewriteCtx) {v post : List Char}
    (hv : v.all isValChar = true) (hne : '=' ∉ v) (hne0 : v ≠ [])
    (hskipv : skipTest v = true) :
    rewriteUrls ctx ('u' :: 'r' :: 'l' :: '(' :: (v ++ ')' :: post)) =
      (rewriteUrls ctx post).map
        (fun r => 'u' :: 'r' :: 'l' :: '(' :: (v ++ ')' :: r)) := by
  cases v with
  | nil => exact absurd rfl hne0
  | cons c v =>
    simp only [List.all_cons, Bool.and_eq_true] at hv
    have hskip2 : skipTest (c :: (v ++ ')' :: post)) = true := by
      have : skipTest ((c :: v) ++ ')' :: post) = true := skipTest_append hskipv
      simpa using this
    have hm := @matchAt_css_unquoted c v post hv.1 hskip2
    unfold rewriteUrls
    rw [show ('u' :: 'r' :: 'l' :: '(' :: ((c :: v) ++ ')' :: post) : List Char) =
      'u' :: 'r' :: 'l' :: '(' :: c :: (v ++ ')' :: post) from rfl]
    rw [replaceScan_cons_none _ hm,
      replaceScan_cons_none _ (matchAt_none_of_head (c := 'r') (by decide) (by decide)
        (by decide) (by decide)),
      replaceScan_cons_none _ (matchAt_none_of_head (c := 'l') (by decide) (by decide)
        (by decide) (by decide)),
      replaceScan_cons_none _ (matchAt_none_of_head (c := '(') (by decide) (by decide)
        (by decide) (by decide))]
    rw [show (c :: (v ++ ')' :: post) : List Char) = (c :: v) ++ ')' :: post from rfl]
    rw [replaceScan_chunk _ (y := ')') (by simp [List.all_cons, hv.1, hv.2]) hne
        (by decide) (by decide) (by decide) (by decide),
      replaceScan_cons_none _ (matchAt_none_of_head (c := ')') (by decide) (by decide)
        (by decide) (by decide))]
    cases replaceScan (applyReplacer ctx) post <;> simp

/-! ### Header-map and handler helper lemmas -/

theorem find?_split (p : (String × String) → Bool) (l1 l2 : List (String × String)) :
    (l1 ++ l2).find? p =
      match l1.find? p with
      | some x => some x
      | none => l2.find? p := by
  induction l1 with
  | nil => simp
  | cons kv l1 ih =>
    by_cases h : p kv = true
    · simp [List.find?_cons, h]
    · simp only [List.cons_append, List.find?_cons, h]
      simp only [Bool.false_eq_true, if_false] at *
      rw [ih]

theorem find?_map_same (hs : List (String × String)) (k v : String) :
    (hs.map (fun kv => if kv.1 = k then (k, v) else kv)).find? (fun kv => kv.1 = k) =
      (hs.find? (fun kv => kv.1 = k)).map (fun _ => (k, v)) := by
  induction hs with
  | nil => rfl
  | cons kv hs ih =>
    by_cases hk : kv.1 = k
    · simp [List.find?_cons, hk]
    · simp [List.find?_cons, hk, ih]

theorem find?_map_ne (hs : List (String × String)) {k k2 : String} (v : String)
    (hne : k2 ≠ k) :
    (hs.map (fun kv => if kv.1 = k then (k, v) else kv)).find? (fun kv => kv.1 = k2) =
      hs.find? (fun kv => kv.1 = k2) := by
  induction hs with
  | nil => rfl
  | cons kv hs ih =>
    by_cases hk : kv.1 = k
    · have h2 : kv.1 ≠ k2 := by rw [hk]; exact Ne.symm hne
      simp only [List.map_cons, if_pos hk]
      rw [List.find?_cons_of_neg _ (by simp [Ne.symm hne]),
        List.find?_cons_of_neg _ (by simp [h2]), ih]
    · by_cases hk2 : kv.1 = k2
      · simp only [List.map_cons, if_neg hk]
        rw [List.find?_cons_of_pos _ (by simp [hk2]),
          List.find?_cons_of_pos _ (by simp [hk2])]
      · simp only [List.map_cons, if_neg hk]
        rw [List.find?_cons_of_neg _ (by simp [hk2]),
          List.find?_cons_of_neg _ (by simp [hk2]), ih]

theorem find?_filter_ne (hs : List (String × String)) {k k2 : String}
    (hne : k2 ≠ k) :
    (hs.filter (fun kv => kv.1 ≠ k)).find? (fun kv => kv.1 = k2) =
      hs.find? (fun kv => kv.1 = k2) := by
  induction hs with
  | nil => rfl
  | cons kv hs ih =>
    by_cases hk : kv.1 = k
    · have h2 : kv.1 ≠ k2 := by rw [hk]; exact Ne.symm hne
      rw [List.filter_cons, if_neg (by simp [hk]),
        List.find?_cons_of_neg _ (by simp [h2])]
      exact ih
    · rw [List.filter_cons, if_pos (by simp [hk])]
      by_cases hk2 : kv.1 = k2
      · rw [List.find?_cons_of_pos _ (by simp [hk2]),
          List.find?_cons_of_pos _ (by simp [hk2])]
      · rw [List.find?_cons_of_neg _ (by simp [hk2]),
          List.find?_cons_of_neg _ (by simp [hk2]), ih]

theorem hGet_hSet_same (hs : List (String × String)) (k v : String) :
    hGet (hSet hs k v) k = some v := by
  unfold hGet hSet
  by_cases h : (hs.find? (fun kv => kv.1 = k)).isSome
  · rw [if_pos h, find?_map_same]
    obtain ⟨w, hw⟩ := Option.isSome_iff_exists.mp h
    rw [hw]
    rfl
  · rw [if_neg h, find?_split]
    rw [Option.not_isSome_iff_eq_none] at h
    rw [h]
    simp [List.find?_cons]

theorem hGet_hSet_ne (hs : List (String × String)) {k k2 : String} (v : String)
    (hne : k2 ≠ k) : hGet (hSet hs k v) k2 = hGet hs k2 := by
  unfold hGet hSet
  by_cases h : (hs.find? (fun kv => kv.1 = k)).isSome
  · rw [if_pos h, find?_map_ne _ v hne]
  · rw [if_neg h, find?_split]
    cases hfind : hs.find? (fun kv => kv.1 = k2) with
    | some w => rfl
    | none => simp [List.find?_cons, Ne.symm hne]

theorem hGet_hDel_ne (hs : List (String × String)) {k k2 : String}
    (hne : k2 ≠ k) : hGet (hDel hs k) k2 = hGet hs k2 := by
  unfold hGet hDel
  rw [find?_filter_ne _ hne]

theorem hGet_rwLoc_ne (pb so tgt : List Char) (hs : List (String × String))
    {k : String} (hne : k ≠ "location") :
    hGet (rewriteLocationHeader pb so tgt hs) k = hGet hs k := by
  unfold rewriteLocationHeader
  cases hGet hs "location" with
  | none => rfl
  | some loc => exact hGet_hSet_ne hs _ hne

theorem rewriteUrls_nil (ctx : RewriteCtx) : rewriteUrls ctx [] = some [] := by
  unfold rewriteUrls
  rw [replaceScan]

theorem srcsetScan_nil (ctx : RewriteCtx) : srcsetScan ctx [] = some [] := by
  rw [srcsetScan]

theorem logPR_log_status (st : Store) (ip : String) (fp : Option String)
    (u s : String) :
    ((logProxyRequest st ip fp u s).log.map LogEntry.status) =
      st.log.map LogEntry.status ++ [s] := by
  unfold logProxyRequest
  cases getVisitorByIpAndFingerprint st ip fp <;> simp [createVisitor]

theorem logPR_inputs (st : Store) (ip : String) (fp : Option String) (u s : String) :
    (logProxyRequest st ip fp u s).inputs = st.inputs := by
  unfold logProxyRequest
  cases getVisitorByIpAndFingerprint st ip fp <;> simp [createVisitor]

theorem logPR_found {st : Store} {ip : String} {fp : Option String} {v : Visitor}
    (h : getVisitorByIpAndFingerprint st ip fp = some v) (u s : String) :
    logProxyRequest st ip fp u s = { st with log := st.log ++ [⟨v.id, u, s⟩] } := by
  unfold logProxyRequest
  rw [h]

/-- The lazy value group closing at `\3\s*\)` with `\3` unset: a `)` ends
the value even inside an HTML attribute, because the unset optional CSS
quote makes `\3\s*\)` reduce to `\s*\)` in every alternative. -/
theorem lazyVal_paren {q : Char} {v w : List Char} (hq : isQuoteChar q = true)
    (hv : v.all isValChar = true) :
    lazyVal q (v ++ ')' :: w) = some (v, [')'], w) := by
  induction v with
  | nil =>
    rw [List.nil_append]
    unfold lazyVal
    rw [if_neg (show ¬(')' = q) from by
      rcases quote_cases hq with h | h | h <;> subst h <;> decide)]
    rw [show closeParen (')' :: w) = some ([')'], w) from by
      unfold closeParen
      rw [List.dropWhile_cons]
      simp only [show isWsChar ')' = false from rfl, Bool.false_eq_true, if_false]
      rw [List.takeWhile_cons]
      simp only [show isWsChar ')' = false from rfl, Bool.false_eq_true, if_false,
        List.nil_append]]
  | cons c v ih =>
    simp only [List.all_cons, Bool.and_eq_true] at hv
    have hspec := isValChar_spec hv.1
    have hcq : c ≠ q := by
      intro he
      rw [he] at hspec
      rw [hq] at hspec
      exact Bool.noConfusion hspec.2.1
    rw [List.cons_append]
    unfold lazyVal
    rw [if_neg hcq, closeParen_none_of_val hv.1]
    simp only []
    rw [if_pos hv.1, ih hv.2]

theorem matchAt_attr_paren {attr v w : List Char} {q : Char}
    (hattr : lcList attr = "src".data ∨ lcList attr = "href".data ∨
      lcList attr = "action".data)
    (hq : isQuoteChar q = true) (hv : v.all isValChar = true)
    (hskip : skipTest (v ++ ')' :: w) = false) :
    matchAt (attr ++ '=' :: q :: (v ++ ')' :: w)) =
      some ⟨true, attr, q, none, v, attr ++ '=' :: q :: (v ++ [')']), w⟩ := by
  unfold matchAt htmlAttempt htmlPrefix
  rw [keywordSplit_attr hattr]
  simp only []
  rw [List.dropWhile_cons]
  simp only [show isWsChar '=' = false from rfl, Bool.false_eq_true, if_false,
    if_true]
  rw [List.dropWhile_cons]
  simp only [quote_not_ws hq, Bool.false_eq_true, if_false]
  rw [if_pos hq]
  simp only [hskip, Bool.false_eq_true, if_false]
  rw [lazyVal_paren hq hv]
  simp only [List.takeWhile_cons, show isWsChar '=' = false from rfl,
    quote_not_ws hq, Bool.false_eq_true, if_false, List.nil_append,
    List.append_nil, List.append_assoc, List.cons_append, List.singleton_append]

/-- The scan at an HTML attribute occurrence whose value contains `)`: the
match closes at the parenthesis, only the prefix before it is resolved and
re-emitted (with the replacement's own closing quote), and the rest of the
original value is re-scanned in place. -/
theorem replaceScan_attr_paren (ctx : RewriteCtx) {attr v w abs : List Char} {q : Char}
    (hattr : lcList attr = "src".data ∨ lcList attr = "href".data ∨
      lcList attr = "action".data)
    (hq : isQuoteChar q = true) (hv : v.all isValChar = true) (hne : v ≠ [])
    (hskip : skipTest (v ++ ')' :: w) = false)
    (habs : resolveUrl v ctx.target = some abs) :
    rewriteUrls ctx (attr ++ '=' :: q :: (v ++ ')' :: w)) =
      (rewriteUrls ctx w).map
        (fun r => attr ++ '=' :: q :: (ctx.proxyBase ++ encURI abs ++ q :: r)) := by
  have hm := matchAt_attr_paren hattr hq hv hskip
  have hrep : applyReplacer ctx
      ⟨true, attr, q, none, v, attr ++ '=' :: q :: (v ++ [')']), w⟩ =
      some (attr ++ '=' :: q :: ((ctx.proxyBase ++ encURI abs) ++ [q])) := by
    unfold applyReplacer
    simp only []
    rw [if_neg hne, habs]
    simp only [if_true]
  unfold rewriteUrls
  rw [replaceScan_match_step _ hm hrep]
  simp only []
  cases replaceScan (applyReplacer ctx) w <;>
    simp [List.append_assoc]

/-- When no position of `s` starts a match, the scan is the identity. -/
theorem replaceScan_all_none (rep : UrlMatch → Option (List Char)) (s : List Char)
    (h : ∀ i, i < s.length → matchAt (s.drop i) = none) :
    replaceScan rep s = some s := by
  induction s with
  | nil => rw [replaceScan]
  | cons c t ih =>
    have h0 : matchAt (c :: t) = none := h 0 (by simp)
    rw [replaceScan_cons_none rep h0,
      ih (fun i hi => h (i + 1) (by simp only [List.length_cons]; omega))]
    rfl

/-! ### The claims -/

/-- C1 (counterexample): legal relative URLs outside the regex's value
class `[^\s'"`()]` falsify the original claim: a value containing `(`
(here `/wiki/Foo_(bar)`) never matches and is left unrewritten, and a
value containing `)` (here `/a)b`) is truncated at the parenthesis — only
`/a` is resolved and the tail `b"` is left dangling after the replacement's
own closing quote. -/
theorem claim_C1_counterexample :
    rewriteUrls ⟨"https://example.com/page".data, "/api/proxy?url=".data⟩
        ("href=".data ++ quoteD :: ("/wiki/Foo_(bar)".data ++ quoteD :: ['>'])) =
      some ("href=".data ++ quoteD :: ("/wiki/Foo_(bar)".data ++ quoteD :: ['>'])) ∧
    rewriteUrls ⟨"https://example.com/page".data, "/api/proxy?url=".data⟩
        ("href".data ++ '=' :: quoteD :: ("/a".data ++ ')' :: ('b' :: quoteD :: ['>']))) =
      some ("href".data ++ '=' :: quoteD ::
        ("/api/proxy?url=".data ++ encURI "https://example.com/a".data ++
          quoteD :: ('b' :: quoteD :: ['>']))) := by
  constructor
  · unfold rewriteUrls
    apply replaceScan_all_none
    intro i hi
    have h23 : i < 23 := hi
    interval_cases i <;> rfl
  · rw [replaceScan_attr_paren ⟨"https://example.com/page".data, "/api/proxy?url=".data⟩
      (Or.inr (Or.inl (by decide))) (by decide) (by decide) (by decide) (by decide)
      (by rfl)]
    rw [show rewriteUrls ⟨"https://example.com/page".data, "/api/proxy?url=".data⟩
        ('b' :: quoteD :: ['>']) = some ('b' :: quoteD :: ['>']) from by
      unfold rewriteUrls
      apply replaceScan_all_none
      intro i hi
      have h3 : i < 3 := hi
      interval_cases i <;> rfl]
    rfl

/-- C1 (amended): within the URL pattern's value class (characters other
than whitespace, quotes and parentheses), a rewrite-eligible HTML attribute
occurrence whose value resolves has its value replaced by the proxy base
(`<own-host>/api/proxy?url=`) followed by the percent-encoding of the value
resolved against the target page's URL, and percent-decoding that encoding
reproduces the resolved absolute URL exactly.  Relative URLs containing a
parenthesis fall outside this guarantee (see the counterexample). -/
theorem claim_C1_amended (ctx : RewriteCtx) {attr v post abs : List Char} {q : Char}
    (hattr : lcList attr = "src".data ∨ lcList attr = "href".data ∨
      lcList attr = "action".data)
    (hq : isQuoteChar q = true) (hv : v.all isValChar = true) (hne : v ≠ [])
    (hskip : skipTest (v ++ q :: post) = false)
    (habs : resolveUrl v ctx.target = some abs) :
    rewriteUrls ctx (attr ++ '=' :: q :: (v ++ q :: post)) =
      (rewriteUrls ctx post).map
        (fun r => attr ++ '=' :: q :: (ctx.proxyBase ++ encURI abs ++ q :: r)) ∧
    decURI (encURI abs) = some (abs.map Char.toNat) :=
  ⟨replaceScan_attr_rw ctx hattr hq hv hne hskip habs, decURI_encURI abs⟩

theorem claim_C1_amended_witness :
    (skipTest ("/path?a=1".data ++ quoteD :: []) = false) ∧
    (resolveUrl "/path?a=1".data "https://example.com/page".data =
      some "https://example.com/path?a=1".data) ∧
    (rewriteUrls ⟨"https://example.com/page".data, "/api/proxy?url=".data⟩
        ("href".data ++ '=' :: quoteD :: ("/path?a=1".data ++ quoteD :: [])) =
      (rewriteUrls ⟨"https://example.com/page".data, "/api/proxy?url=".data⟩ []).map
        (fun r => "href".data ++ '=' :: quoteD ::
          ("/api/proxy?url=".data ++ encURI "https://example.com/path?a=1".data ++
            quoteD :: r)) ∧
     decURI (encURI "https://example.com/path?a=1".data) =
      some ("https://example.com/path?a=1".data.map Char.toNat)) :=
  ⟨by decide, by rfl,
    claim_C1_amended ⟨"https://example.com/page".data, "/api/proxy?url=".data⟩
      (by decide) (by decide) (by decide) (by decide) (by decide) (by rfl)⟩

/-- C2 (counterexample): a skip-listed value is only skipped as a match at
its own position — the global scan then re-enters the value's interior and
rewrites any nested attribute-shaped substring.  Here the inner
`src='/x'` inside the skip-listed value `javascript:src='/x'` is rewritten,
so the skip-listed substring is not left unchanged. -/
theorem claim_C2_counterexample :
    rewriteUrls ⟨"https://example.com/page".data, "/api/proxy?url=".data⟩
        (("src".data ++ '=' :: quoteD :: "javascript:".data) ++
          ("src".data ++ '=' :: quoteS :: ("/x".data ++ quoteS :: (quoteD :: ['>'])))) =
      some (("src".data ++ '=' :: quoteD :: "javascript:".data) ++
        ("src".data ++ '=' :: quoteS ::
          ("/api/proxy?url=".data ++ encURI "https://example.com/x".data ++
            quoteS :: (quoteD :: ['>'])))) ∧
    (("src".data ++ '=' :: quoteD :: "javascript:".data) ++
        ("src".data ++ '=' :: quoteS ::
          ("/api/proxy?url=".data ++ encURI "https://example.com/x".data ++
            quoteS :: (quoteD :: ['>'])))) ≠
      (("src".data ++ '=' :: quoteD :: "javascript:".data) ++
        ("src".data ++ '=' :: quoteS :: ("/x".data ++ quoteS :: (quoteD :: ['>'])))) := by
  constructor
  · have hinner : rewriteUrls ⟨"https://example.com/page".data, "/api/proxy?url=".data⟩
        ("src".data ++ '=' :: quoteS :: ("/x".data ++ quoteS :: (quoteD :: ['>']))) =
        some ("src".data ++ '=' :: quoteS ::
          ("/api/proxy?url=".data ++ encURI "https://example.com/x".data ++
            quoteS :: (quoteD :: ['>']))) := by
      rw [replaceScan_attr_rw ⟨"https://example.com/page".data, "/api/proxy?url=".data⟩
        (Or.inl (by decide)) (by decide) (by decide) (by decide) (by decide) (by rfl)]
      rw [show rewriteUrls ⟨"https://example.com/page".data, "/api/proxy?url=".data⟩
          (quoteD :: ['>']) = some (quoteD :: ['>']) from by
        unfold rewriteUrls
        apply replaceScan_all_none
        intro i hi
        have h2 : i < 2 := hi
        interval_cases i <;> rfl]
      rfl
    unfold rewriteUrls at hinner ⊢
    rw [ replaceScan_prefix (applyReplacer
        ⟨"https://example.com/page".data, "/api/proxy?url=".data⟩)
      ("src".data ++ '=' :: quoteD :: "javascript:".data)
      ("src".data ++ '=' :: quoteS :: ("/x".data ++ quoteS :: (quoteD :: ['>'])))
      (by
        intro i hi
        have h16 : i < 16 := hi
        interval_cases i <;> rfl)]
    rw [hinner]
    rfl
  · decide

/-- C2 (amended): for values inside the pattern's value class (no
whitespace, quotes, parentheses or `=`), an occurrence whose value trips
the negative lookahead (`data:`, `mailto:`, `#`, `javascript:`, `about:`,
`scheme://` or `//` — the alternatives of `skipTest`) is copied through
unchanged in all three syntactic forms (HTML attribute, quoted CSS `url()`,
unquoted CSS `url()`); and the spec's own examples outside that class —
`src="javascript:void(0)"` and `href="https://other.com/x?a=1"` — are also
left unchanged by the whole scan, for every rewrite context.  A skip-listed
value containing a nested attribute-shaped substring is NOT left unchanged
(see the counterexample). -/
theorem claim_C2_amended (ctx : RewriteCtx) {attr v post : List Char} {q : Char}
    (hattr : lcList attr = "src".data ∨ lcList attr = "href".data ∨
      lcList attr = "action".data)
    (hq : isQuoteChar q = true) (hv : v.all isValChar = true) (hne : '=' ∉ v)
    (hne0 : v ≠ []) (hskipv : skipTest v = true) :
    ((rewriteUrls ctx (attr ++ '=' :: q :: (v ++ q :: post)) =
      (rewriteUrls ctx post).map (fun r => attr ++ '=' :: q :: (v ++ q :: r))) ∧
    (rewriteUrls ctx ('u' :: 'r' :: 'l' :: '(' :: q :: (v ++ q :: ')' :: post)) =
      (rewriteUrls ctx post).map
        (fun r => 'u' :: 'r' :: 'l' :: '(' :: q :: (v ++ q :: ')' :: r))) ∧
    (rewriteUrls ctx ('u' :: 'r' :: 'l' :: '(' :: (v ++ ')' :: post)) =
      (rewriteUrls ctx post).map
        (fun r => 'u' :: 'r' :: 'l' :: '(' :: (v ++ ')' :: r)))) ∧
    (rewriteUrls ctx
        ("src".data ++ '=' :: quoteD :: ("javascript:void(0)".data ++ quoteD :: ['>'])) =
      some ("src".data ++ '=' :: quoteD ::
        ("javascript:void(0)".data ++ quoteD :: ['>']))) ∧
    (rewriteUrls ctx
        ("href".data ++ '=' :: quoteD ::
          ("https://other.com/x?a=1".data ++ quoteD :: ['>'])) =
      some ("href".data ++ '=' :: quoteD ::
        ("https://other.com/x?a=1".data ++ quoteD :: ['>']))) := by
  refine ⟨⟨replaceScan_attr_keep (applyReplacer ctx) hattr hq hv hne hskipv,
    replaceScan_css_quoted ctx hq hv hne hskipv,
    replaceScan_css_unquoted ctx hv hne hne0 hskipv⟩, ?_, ?_⟩
  · unfold rewriteUrls
    apply replaceScan_all_none
    intro i hi
    have h25 : i < 25 := hi
    interval_cases i <;> rfl
  · unfold rewriteUrls
    apply replaceScan_all_none
    intro i hi
    have h31 : i < 31 := hi
    interval_cases i <;> rfl

theorem claim_C2_amended_witness :
    (skipTest "https://other.com/x".data = true) ∧
    ("https://other.com/x".data.all isValChar = true) ∧
    (rewriteUrls ⟨"https://example.com/page".data, "/api/proxy?url=".data⟩
        ("src".data ++ '=' :: quoteS :: ("https://other.com/x".data ++ quoteS :: [])) =
      (rewriteUrls ⟨"https://example.com/page".data, "/api/proxy?url=".data⟩ []).map
        (fun r => "src".data ++ '=' :: quoteS :: ("https://other.com/x".data ++
          quoteS :: r))) ∧
    (rewriteUrls ⟨"https://example.com/page".data, "/api/proxy?url=".data⟩
        ('u' :: 'r' :: 'l' :: '(' :: quoteS ::
          ("https://other.com/x".data ++ quoteS :: ')' :: [])) =
      (rewriteUrls ⟨"https://example.com/page".data, "/api/proxy?url=".data⟩ []).map
        (fun r => 'u' :: 'r' :: 'l' :: '(' :: quoteS ::
          ("https://other.com/x".data ++ quoteS :: ')' :: r))) ∧
    (rewriteUrls ⟨"https://example.com/page".data, "/api/proxy?url=".data⟩
        ('u' :: 'r' :: 'l' :: '(' :: ("https://other.com/x".data ++ ')' :: [])) =
      (rewriteUrls ⟨"https://example.com/page".data, "/api/proxy?url=".data⟩ []).map
        (fun r => 'u' :: 'r' :: 'l' :: '(' :: ("https://other.com/x".data ++
          ')' :: r))) := by
  refine ⟨by decide, by decide, ?_⟩
  exact (claim_C2_amended ⟨"https://example.com/page".data, "/api/proxy?url=".data⟩
    (by decide) (by decide) (by decide) (by decide) (by decide) (by decide)).1

/-- C4 (counterexample): a GET whose upstream fetch fails writes TWO log
entries — `success` (before dispatch) and then `error` (in `onError`) — not
exactly one `error` entry. -/
theorem claim_C4_counterexample :
    ((handleProxy ⟨Method.get, some "https://example.com/", [], "1.2.3.4", none⟩
        true ⟨[], [], []⟩).2.log.map LogEntry.status) = ["success", "error"] := by
  rfl

/-- C4 (amended): after validation passes, the statuses appended to the
activity log are exactly: `blocked` for a blocked visitor; `success` for a
POST; `success` for a successful GET; and `success` FOLLOWED BY `error` for
a GET whose upstream fetch fails (the success entry is written before the
dispatch and is not retracted). -/
theorem claim_C4_amended (req : Req) (ff : Bool) (st : Store) (u : String)
    (hu : targetUrlOf req = some u) (hne : u ≠ "")
    (hparse : jsUrlParses u.data = true) :
    ((handleProxy req ff st).2.log.map LogEntry.status) =
      st.log.map LogEntry.status ++
        (if (match getVisitorByIpAndFingerprint st req.ip req.fingerprint with
             | some v => v.blocked
             | none => false) then ["blocked"]
         else match req.method with
           | Method.post => ["success"]
           | Method.get => if ff then ["success", "error"] else ["success"]) := by
  unfold handleProxy
  rw [hu]
  simp only []
  rw [if_neg hne, hparse, if_neg (show ¬(true = false) by decide)]
  cases hblk : (match getVisitorByIpAndFingerprint st req.ip req.fingerprint with
      | some v => v.blocked
      | none => false) with
  | true =>
    simp only [if_true]
    exact logPR_log_status st req.ip req.fingerprint u "blocked"
  | false =>
    simp only [Bool.false_eq_true, if_false]
    cases hm : req.method with
    | post =>
      simp only []
      cases hv2 : getVisitorByIpAndFingerprint
          (logProxyRequest st req.ip req.fingerprint u "success") req.ip req.fingerprint with
      | some v =>
        simp only []
        exact logPR_log_status st req.ip req.fingerprint u "success"
      | none =>
        simp only []
        exact logPR_log_status st req.ip req.fingerprint u "success"
    | get =>
      cases ff with
      | true =>
        simp only [if_true]
        rw [logPR_log_status, logPR_log_status, List.append_assoc]
        rfl
      | false =>
        simp only [Bool.false_eq_true, if_false]
        exact logPR_log_status st req.ip req.fingerprint u "success"

theorem claim_C4_amended_witness :
    (targetUrlOf ⟨Method.post, none, [("url", JsonVal.str "https://example.com/")],
        "5.6.7.8", none⟩ = some "https://example.com/") ∧
    (jsUrlParses "https://example.com/".data = true) ∧
    ((handleProxy ⟨Method.post, none, [("url", JsonVal.str "https://example.com/")],
        "5.6.7.8", none⟩ false ⟨[], [], []⟩).2.log.map LogEntry.status) = ["success"] := by
  refine ⟨by rfl, by rfl, ?_⟩
  have h := claim_C4_amended
    ⟨Method.post, none, [("url", JsonVal.str "https://example.com/")], "5.6.7.8", none⟩
    false ⟨[], [], []⟩ "https://example.com/" (by rfl) (by decide) (by rfl)
  simpa using h

/-- C5 (counterexample): validation accepts any URL that `new URL` parses —
there is no `http`/`https` scheme whitelist — so an `ftp://` target passes
validation and the upstream dispatch is performed. -/
theorem claim_C5_counterexample :
    (handleProxy ⟨Method.get, some "ftp://example.com/x", [], "9.9.9.8", none⟩
        false ⟨[], [], []⟩).1 = ⟨HResp.proxied, true⟩ := by
  rfl

/-- C5 (amended): missing or empty input yields the MissingURL response
with no fetch; an input `new URL` cannot parse yields InvalidURL with no
fetch; any input `new URL` parses (regardless of its scheme) passes
validation and proceeds past both 400-class gates. -/
theorem claim_C5_amended (req : Req) (ff : Bool) (st : Store) :
    (targetUrlOf req = none → handleProxy req ff st = (⟨HResp.missingUrl, false⟩, st)) ∧
    (∀ u, targetUrlOf req = some u → u = "" →
      handleProxy req ff st = (⟨HResp.missingUrl, false⟩, st)) ∧
    (∀ u, targetUrlOf req = some u → jsUrlParses u.data = false → u ≠ "" →
      handleProxy req ff st = (⟨HResp.invalidUrl, false⟩, st)) ∧
    (∀ u, targetUrlOf req = some u → u ≠ "" → jsUrlParses u.data = true →
      (handleProxy req ff st).1.resp = HResp.forbidden ∨
      (handleProxy req ff st).1.resp = HResp.postRedirect u ∨
      (handleProxy req ff st).1.resp = HResp.proxyError ∨
      (handleProxy req ff st).1.resp = HResp.proxied) := by
  refine ⟨?_, ?_, ?_, ?_⟩
  · intro h
    unfold handleProxy
    rw [h]
  · intro u hu he
    unfold handleProxy
    rw [hu]
    simp only []
    rw [if_pos he]
  · intro u hu hp hne
    unfold handleProxy
    rw [hu]
    simp only []
    rw [if_neg hne, hp, if_pos rfl]
  · intro u hu hne hp
    unfold handleProxy
    rw [hu]
    simp only []
    rw [if_neg hne, hp, if_neg (show ¬(true = false) by decide)]
    cases hblk : (match getVisitorByIpAndFingerprint st req.ip req.fingerprint with
        | some v => v.blocked
        | none => false) with
    | true =>
      simp only [if_true]
      simp
    | false =>
      simp only [Bool.false_eq_true, if_false]
      cases req.method with
      | post =>
        simp only []
        cases getVisitorByIpAndFingerprint
            (logProxyRequest st req.ip req.fingerprint u "success") req.ip req.fingerprint with
        | some v => simp
        | none => simp
      | get =>
        cases ff with
        | true => simp
        | false => simp

theorem claim_C5_amended_witness :
    (targetUrlOf ⟨Method.get, some "ht tp", [], "9.9.9.7", none⟩ = some "ht tp") ∧
    (jsUrlParses "ht tp".data = false) ∧
    handleProxy ⟨Method.get, some "ht tp", [], "9.9.9.7", none⟩ false ⟨[], [], []⟩ =
      (⟨HResp.invalidUrl, false⟩, ⟨[], [], []⟩) :=
  ⟨rfl, by decide,
    (claim_C5_amended ⟨Method.get, some "ht tp", [], "9.9.9.7", none⟩ false
      ⟨[], [], []⟩).2.2.1 "ht tp" rfl (by decide) (by decide)⟩

/-- C8: a blocked visitor identity short-circuits to the Forbidden response
with no upstream fetch, and the only store change is exactly one activity
entry with status `blocked`. -/
theorem claim_C8 (req : Req) (ff : Bool) (st : Store) (u : String) (v : Visitor)
    (hu : targetUrlOf req = some u) (hne : u ≠ "")
    (hparse : jsUrlParses u.data = true)
    (hv : getVisitorByIpAndFingerprint st req.ip req.fingerprint = some v)
    (hb : v.blocked = true) :
    handleProxy req ff st =
      (⟨HResp.forbidden, false⟩, { st with log := st.log ++ [⟨v.id, u, "blocked"⟩] }) := by
  unfold handleProxy
  rw [hu]
  simp only []
  rw [if_neg hne, hparse, if_neg (show ¬(true = false) by decide), hv]
  simp only []
  rw [if_pos hb, logPR_found hv]

theorem claim_C8_witness :
    (getVisitorByIpAndFingerprint ⟨[⟨7, "9.9.9.9", none, true⟩], [], []⟩
        "9.9.9.9" none = some ⟨7, "9.9.9.9", none, true⟩) ∧
    handleProxy ⟨Method.get, some "https://example.com/", [], "9.9.9.9", none⟩ false
        ⟨[⟨7, "9.9.9.9", none, true⟩], [], []⟩ =
      (⟨HResp.forbidden, false⟩,
        ⟨[⟨7, "9.9.9.9", none, true⟩],
          [⟨7, "https://example.com/", "blocked"⟩], []⟩) :=
  ⟨rfl,
    claim_C8 ⟨Method.get, some "https://example.com/", [], "9.9.9.9", none⟩ false
      ⟨[⟨7, "9.9.9.9", none, true⟩], [], []⟩ "https://example.com/"
      ⟨7, "9.9.9.9", none, true⟩ rfl (by decide) (by rfl) rfl rfl⟩

/-- C10 (counterexample): a POST from a visitor identity that HAS a stored
record but is blocked persists NO form inputs (it short-circuits to
Forbidden), so the claim needs a non-blocked precondition. -/
theorem claim_C10_counterexample :
    (handleProxy ⟨Method.post, none,
        [("url", JsonVal.str "https://example.com/"), ("user", JsonVal.str "bob")],
        "8.8.8.8", none⟩ false ⟨[⟨3, "8.8.8.8", none, true⟩], [], []⟩).2.inputs = [] ∧
    (handleProxy ⟨Method.post, none,
        [("url", JsonVal.str "https://example.com/"), ("user", JsonVal.str "bob")],
        "8.8.8.8", none⟩ false ⟨[⟨3, "8.8.8.8", none, true⟩], [], []⟩).1.resp =
      HResp.forbidden := by
  exact ⟨rfl, rfl⟩

/-- C10 (amended): a POST with a valid URL from a NON-BLOCKED visitor whose
record is already stored appends to the input log exactly the string-valued
body fields other than `url` (tagged with the visitor's id), appends exactly
one `success` activity entry, and answers with the redirect descriptor
without an upstream fetch. -/
theorem claim_C10_amended (req : Req) (ff : Bool) (st : Store) (u : String) (v : Visitor)
    (hm : req.method = Method.post)
    (hu : targetUrlOf req = some u) (hne : u ≠ "")
    (hparse : jsUrlParses u.data = true)
    (hv : getVisitorByIpAndFingerprint st req.ip req.fingerprint = some v)
    (hb : v.blocked = false) :
    (handleProxy req ff st).2.inputs =
      st.inputs ++ req.body.filterMap (fun kv =>
        if kv.1 ≠ "url" then
          match kv.2 with
          | JsonVal.str s => some (v.id, s)
          | _ => none
        else none) ∧
    ((handleProxy req ff st).2.log.map LogEntry.status) =
      st.log.map LogEntry.status ++ ["success"] ∧
    (handleProxy req ff st).1 = ⟨HResp.postRedirect u, false⟩ := by
  unfold handleProxy
  rw [hu]
  simp only []
  rw [if_neg hne, hparse, if_neg (show ¬(true = false) by decide), hv]
  simp only []
  rw [if_neg (show ¬(v.blocked = true) by simp [hb]), hm]
  simp only []
  rw [logPR_found hv]
  have hv2 : getVisitorByIpAndFingerprint
      { st with log := st.log ++ [⟨v.id, u, "success"⟩] } req.ip req.fingerprint =
      some v := hv
  rw [hv2]
  simp only []
  exact ⟨trivial, by simp, trivial⟩

theorem claim_C10_amended_witness :
    (getVisitorByIpAndFingerprint ⟨[⟨4, "8.8.4.4", none, false⟩], [], []⟩
        "8.8.4.4" none = some ⟨4, "8.8.4.4", none, false⟩) ∧
    (handleProxy ⟨Method.post, none,
        [("url", JsonVal.str "https://example.com/"), ("user", JsonVal.str "bob"),
         ("pass", JsonVal.str "hunter2"), ("ok", JsonVal.jbool true)],
        "8.8.4.4", none⟩ false ⟨[⟨4, "8.8.4.4", none, false⟩], [], []⟩).2.inputs =
      [(4, "bob"), (4, "hunter2")] := by
  refine ⟨rfl, ?_⟩
  have h := (claim_C10_amended ⟨Method.post, none,
      [("url", JsonVal.str "https://example.com/"), ("user", JsonVal.str "bob"),
       ("pass", JsonVal.str "hunter2"), ("ok", JsonVal.jbool true)],
      "8.8.4.4", none⟩ false ⟨[⟨4, "8.8.4.4", none, false⟩], [], []⟩
      "https://example.com/" ⟨4, "8.8.4.4", none, false⟩ rfl rfl (by decide)
      (by rfl) rfl rfl).1
  simpa using h

/-- Pipeline evaluation helper: when the decoded body decodes to the empty
text, both rewriting passes are the identity and the pipeline returns the
re-encoding of the empty text. -/
theorem processPipeline_emptytext (ctx : RewriteCtx) (d : Decoders) (codec : Codec)
    (isHtml : Bool) (ct : String) (enc : Option String) (body decoded : List Nat)
    (hdec : decodeBody d enc body = some decoded)
    (hdecode : codec.decode (resolveCharset codec (some ct)) decoded = []) :
    processPipeline ctx d codec isHtml ct enc body =
      some (codec.encode (resolveCharset codec (some ct)) []) := by
  unfold processPipeline
  rw [hdec]
  simp only []
  rw [hdecode, rewriteUrls_nil]
  simp only []
  cases isHtml with
  | true =>
    rw [if_pos rfl, srcsetScan_nil]
  | false =>
    rw [if_neg (show ¬(false = true) by decide)]

/-- Header lookup through the mutation stages (`location` rewrite,
`set-cookie` strip): every other key reads through to the upstream value. -/
theorem hGet_hs2_ne (pb so tgt : List Char) (hs : List (String × String)) (rc : Bool)
    {k : String} (h1 : k ≠ "location") (h2 : k ≠ "set-cookie") :
    hGet (if rc then hDel (rewriteLocationHeader pb so tgt hs) "set-cookie"
          else rewriteLocationHeader pb so tgt hs) k = hGet hs k := by
  cases rc with
  | true =>
    rw [if_pos rfl, hGet_hDel_ne _ h2, hGet_rwLoc_ne pb so tgt hs h1]
  | false =>
    rw [if_neg (show ¬(false = true) by decide), hGet_rwLoc_ne pb so tgt hs h1]

/-- C6: when decoding a rewrite-eligible encoded body fails (corrupt gzip),
the catch branch pipes the already-drained upstream stream, so the client
receives an EMPTY body — not the original encoded bytes the spec promises
(the graceful-degradation fallback does not deliver the payload). -/
theorem claim_C6_bug :
    (onProxyResModel ⟨"https://example.com/page".data, "/api/proxy?url=".data⟩
        ⟨fun _ => none, fun b => some b, fun b => some b⟩
        ⟨fun _ => false, fun _ _ => [], fun _ _ => []⟩ false
        ⟨200, [("content-type", "text/html"), ("content-encoding", "gzip")],
          [31, 139, 8, 0]⟩).body = [] ∧
    ([31, 139, 8, 0] : List Nat) ≠ [] ∧
    (onProxyResModel ⟨"https://example.com/page".data, "/api/proxy?url=".data⟩
        ⟨fun _ => none, fun b => some b, fun b => some b⟩
        ⟨fun _ => false, fun _ _ => [], fun _ _ => []⟩ false
        ⟨200, [("content-type", "text/html"), ("content-encoding", "gzip")],
          [31, 139, 8, 0]⟩).headers =
      [("content-type", "text/html"), ("content-encoding", "gzip")] :=
  ⟨rfl, by decide, rfl⟩

/-- C3 (counterexample): on the text-rewrite path the response is re-emitted
with ONLY `Content-Type` and `Content-Length` headers, so an upstream
`Location` header is dropped from the emitted response rather than being
rewritten into proxied form. -/
theorem claim_C3_counterexample :
    hGet (onProxyResModel ⟨"https://example.com/page".data, "/api/proxy?url=".data⟩
        ⟨fun b => some b, fun b => some b, fun b => some b⟩
        ⟨fun _ => false, fun _ _ => [], fun _ _ => []⟩ false
        ⟨302, [("content-type", "text/html"), ("location", "/login")], []⟩).headers
      "location" = none ∧
    hGet [("content-type", "text/html"), ("location", "/login")] "location" =
      some "/login" := by
  constructor
  · unfold onProxyResModel
    simp only []
    rw [hGet_hs2_ne _ _ _ _ _ (by decide) (by decide)]
    rw [show hGet [("content-type", "text/html"), ("location", "/login")]
      "content-type" = some "text/html" from rfl]
    simp only []
    rw [if_pos (show (containsSub "text/html".data "text/html".data ||
      containsSub "text/css".data "text/html".data ||
      (containsSub "application/javascript".data "text/html".data ||
       containsSub "text/javascript".data "text/html".data)) = true from rfl)]
    rw [hGet_hs2_ne _ _ _ _ _ (by decide) (by decide)]
    rw [show hGet [("content-type", "text/html"), ("location", "/login")]
      "content-encoding" = none from rfl]
    rw [processPipeline_emptytext
      ⟨"https://example.com/page".data, "/api/proxy?url=".data⟩
      ⟨fun b => some b, fun b => some b, fun b => some b⟩
      ⟨fun _ => false, fun _ _ => [], fun _ _ => []⟩
      (containsSub "text/html".data "text/html".data) "text/html" none [] []
      (by rfl) (by rfl)]
    rfl
  · rfl

/-- C3 (amended): at the value level the `Location` rewrite produces
`<own-host>/api/proxy?url=` plus the percent-encoding of the value resolved
against the source origin; and on a response that is NOT rewrite-eligible
(no `content-type`), the emitted response carries that rewritten `Location`
and the upstream body unchanged.  (On the rewrite path the header is
dropped — see the counterexample.) -/
theorem claim_C3_amended (ctx : RewriteCtx) (d : Decoders) (codec : Codec)
    (up : Upstream) (loc : String) (u : List Char)
    (hloc : hGet up.headers "location" = some loc)
    (hres : resolveUrl loc.data (sourceOriginOf ctx.target) = some u)
    (hct : hGet up.headers "content-type" = none) :
    rewriteLocationValue ctx.proxyBase (sourceOriginOf ctx.target) ctx.target loc.data =
      ctx.proxyBase ++ encURI u ∧
    hGet (onProxyResModel ctx d codec false up).headers "location" =
      some (String.mk (ctx.proxyBase ++ encURI u)) ∧
    (onProxyResModel ctx d codec false up).body = up.body := by
  have h1 : rewriteLocationValue ctx.proxyBase (sourceOriginOf ctx.target) ctx.target
      loc.data = ctx.proxyBase ++ encURI u := by
    unfold rewriteLocationValue
    rw [hres]
  have hmodel : onProxyResModel ctx d codec false up =
      ⟨up.status, rewriteLocationHeader ctx.proxyBase (sourceOriginOf ctx.target)
        ctx.target up.headers, up.body⟩ := by
    unfold onProxyResModel
    simp only []
    rw [if_neg (show ¬(false = true) by decide)]
    rw [hGet_rwLoc_ne _ _ _ _ (by decide), hct]
    rfl
  refine ⟨h1, ?_, ?_⟩
  · rw [hmodel]
    simp only []
    unfold rewriteLocationHeader
    rw [hloc, hGet_hSet_same, h1]
  · rw [hmodel]

theorem claim_C3_amended_witness :
    (hGet [("location", "/login")] "location" = some "/login") ∧
    (resolveUrl "/login".data
      (sourceOriginOf "https://example.com/page".data) =
      some "https://example.com/login".data) ∧
    (hGet (onProxyResModel ⟨"https://example.com/page".data, "/api/proxy?url=".data⟩
        ⟨fun b => some b, fun b => some b, fun b => some b⟩
        ⟨fun _ => false, fun _ _ => [], fun _ _ => []⟩ false
        ⟨302, [("location", "/login")], [5, 6]⟩).headers "location" =
      some (String.mk ("/api/proxy?url=".data ++
        encURI "https://example.com/login".data)) ∧
     (onProxyResModel ⟨"https://example.com/page".data, "/api/proxy?url=".data⟩
        ⟨fun b => some b, fun b => some b, fun b => some b⟩
        ⟨fun _ => false, fun _ _ => [], fun _ _ => []⟩ false
        ⟨302, [("location", "/login")], [5, 6]⟩).body = [5, 6]) := by
  refine ⟨rfl, by rfl, ?_⟩
  have h := claim_C3_amended ⟨"https://example.com/page".data, "/api/proxy?url=".data⟩
    ⟨fun b => some b, fun b => some b, fun b => some b⟩
    ⟨fun _ => false, fun _ _ => [], fun _ _ => []⟩
    ⟨302, [("location", "/login")], [5, 6]⟩ "/login"
    "https://example.com/login".data rfl (by rfl) rfl
  exact ⟨h.2.1, h.2.2⟩

/-- C7: a rewrite-eligible encoded body that decodes and rewrites
successfully is re-emitted with status preserved, headers EXACTLY
`Content-Type` (the original value) and `Content-Length` (the byte length
of the re-encoded text), the rewritten bytes as body, and in particular no
`Content-Encoding` or `Transfer-Encoding` header (every other key reads as
absent). -/
theorem claim_C7 (ctx : RewriteCtx) (d : Decoders) (codec : Codec) (rc : Bool)
    (up : Upstream) (ct : String) (enc : Option String) (newBytes : List Nat)
    (hct : hGet up.headers "content-type" = some ct)
    (henc : hGet up.headers "content-encoding" = enc)
    (hencm : enc = some "gzip" ∨ enc = some "deflate" ∨ enc = some "br")
    (helig : (containsSub "text/html".data ct.data ||
      containsSub "text/css".data ct.data ||
      (containsSub "application/javascript".data ct.data ||
       containsSub "text/javascript".data ct.data)) = true)
    (hpipe : processPipeline ctx d codec (containsSub "text/html".data ct.data)
      ct enc up.body = some newBytes) :
    onProxyResModel ctx d codec rc up =
      ⟨up.status, [("Content-Type", ct), ("Content-Length", toString newBytes.length)],
        newBytes⟩ ∧
    (∀ k, k ≠ "Content-Type" → k ≠ "Content-Length" →
      hGet (onProxyResModel ctx d codec rc up).headers k = none) := by
  have hmain : onProxyResModel ctx d codec rc up =
      ⟨up.status, [("Content-Type", ct), ("Content-Length", toString newBytes.length)],
        newBytes⟩ := by
    unfold onProxyResModel
    simp only []
    rw [hGet_hs2_ne _ _ _ _ _ (by decide) (by decide), hct]
    simp only []
    rw [if_pos helig]
    rw [hGet_hs2_ne _ _ _ _ _ (by decide) (by decide), henc, hpipe]
  refine ⟨hmain, fun k hk1 hk2 => ?_⟩
  rw [hmain]
  unfold hGet
  rw [List.find?_cons_of_neg _ (by simp [Ne.symm hk1]),
    List.find?_cons_of_neg _ (by simp [Ne.symm hk2])]
  rfl

theorem claim_C7_witness :
    (hGet [("content-type", "text/html"), ("content-encoding", "gzip")]
      "content-type" = some "text/html") ∧
    (hGet [("content-type", "text/html"), ("content-encoding", "gzip")]
      "content-encoding" = some "gzip") ∧
    onProxyResModel ⟨"https://example.com/page".data, "/api/proxy?url=".data⟩
        ⟨fun b => some b, fun b => some b, fun b => some b⟩
        ⟨fun _ => false, fun _ _ => [], fun _ _ => []⟩ true
        ⟨200, [("content-type", "text/html"), ("content-encoding", "gzip")], [1, 2]⟩ =
      ⟨200, [("Content-Type", "text/html"),
        ("Content-Length", toString ([] : List Nat).length)], []⟩ := by
  refine ⟨rfl, rfl, ?_⟩
  exact (claim_C7 ⟨"https://example.com/page".data, "/api/proxy?url=".data⟩
    ⟨fun b => some b, fun b => some b, fun b => some b⟩
    ⟨fun _ => false, fun _ _ => [], fun _ _ => []⟩ true
    ⟨200, [("content-type", "text/html"), ("content-encoding", "gzip")], [1, 2]⟩
    "text/html" (some "gzip") [] rfl rfl (Or.inl rfl) (by decide)
    (processPipeline_emptytext
      ⟨"https://example.com/page".data, "/api/proxy?url=".data⟩
      ⟨fun b => some b, fun b => some b, fun b => some b⟩
      ⟨fun _ => false, fun _ _ => [], fun _ _ => []⟩
      (containsSub "text/html".data "text/html".data) "text/html" (some "gzip")
      [1, 2] [1, 2] (by rfl) (by rfl))).1

/-- C9 (counterexample): the `Location` rewrite and `set-cookie` strip
mutate the upstream header mapping in place, and the mid-pipeline fallback
emits those mutated headers over the drained stream — not the untouched
upstream response: the upstream `set-cookie` header is gone and the body is
empty. -/
theorem claim_C9_counterexample :
    hGet (onProxyResModel ⟨"https://example.com/page".data, "/api/proxy?url=".data⟩
        ⟨fun _ => none, fun b => some b, fun b => some b⟩
        ⟨fun _ => true, fun _ _ => [], fun _ _ => []⟩ true
        ⟨200, [("content-type", "text/html"), ("content-encoding", "gzip"),
          ("set-cookie", "sid=1"), ("location", "/login")], [9, 9]⟩).headers
      "set-cookie" = none ∧
    hGet [("content-type", "text/html"), ("content-encoding", "gzip"),
      ("set-cookie", "sid=1"), ("location", "/login")] "set-cookie" =
      some "sid=1" ∧
    (onProxyResModel ⟨"https://example.com/page".data, "/api/proxy?url=".data⟩
        ⟨fun _ => none, fun b => some b, fun b => some b⟩
        ⟨fun _ => true, fun _ _ => [], fun _ _ => []⟩ true
        ⟨200, [("content-type", "text/html"), ("content-encoding", "gzip"),
          ("set-cookie", "sid=1"), ("location", "/login")], [9, 9]⟩).body = [] ∧
    ([9, 9] : List Nat) ≠ [] :=
  ⟨rfl, rfl, rfl, by decide⟩

/-- C9 (amended): a mid-pipeline failure falls back to a response with the
upstream status, an EMPTY body (the buffered stream is already drained),
and the MUTATED header mapping: every key other than `location` and
`set-cookie` reads through to the upstream value, but those two stages
write into the upstream mapping rather than a copy. -/
theorem claim_C9_amended (ctx : RewriteCtx) (d : Decoders) (codec : Codec) (rc : Bool)
    (up : Upstream) (ct : String)
    (hct : hGet up.headers "content-type" = some ct)
    (helig : (containsSub "text/html".data ct.data ||
      containsSub "text/css".data ct.data ||
      (containsSub "application/javascript".data ct.data ||
       containsSub "text/javascript".data ct.data)) = true)
    (hpipe : processPipeline ctx d codec (containsSub "text/html".data ct.data)
      ct (hGet up.headers "content-encoding") up.body = none) :
    (onProxyResModel ctx d codec rc up).status = up.status ∧
    (onProxyResModel ctx d codec rc up).body = [] ∧
    (∀ k, k ≠ "location" → k ≠ "set-cookie" →
      hGet (onProxyResModel ctx d codec rc up).headers k = hGet up.headers k) := by
  have hmain : onProxyResModel ctx d codec rc up =
      ⟨up.status,
        (if rc then hDel (rewriteLocationHeader ctx.proxyBase
            (sourceOriginOf ctx.target) ctx.target up.headers) "set-cookie"
          else rewriteLocationHeader ctx.proxyBase (sourceOriginOf ctx.target)
            ctx.target up.headers), []⟩ := by
    unfold onProxyResModel
    simp only []
    rw [hGet_hs2_ne _ _ _ _ _ (by decide) (by decide), hct]
    simp only []
    rw [if_pos helig]
    rw [hGet_hs2_ne _ _ _ _ _ (by decide) (by decide), hpipe]
    rfl
  refine ⟨by rw [hmain], by rw [hmain], fun k hk1 hk2 => ?_⟩
  rw [hmain]
  exact hGet_hs2_ne _ _ _ _ _ hk1 hk2

theorem claim_C9_amended_witness :
    (hGet [("content-type", "text/css"), ("content-encoding", "gzip"),
      ("x-req-id", "42")] "content-type" = some "text/css") ∧
    ((onProxyResModel ⟨"https://example.com/page".data, "/api/proxy?url=".data⟩
        ⟨fun _ => none, fun b => some b, fun b => some b⟩
        ⟨fun _ => true, fun _ _ => [], fun _ _ => []⟩ false
        ⟨500, [("content-type", "text/css"), ("content-encoding", "gzip"),
          ("x-req-id", "42")], [7]⟩).status = 500 ∧
     (onProxyResModel ⟨"https://example.com/page".data, "/api/proxy?url=".data⟩
        ⟨fun _ => none, fun b => some b, fun b => some b⟩
        ⟨fun _ => true, fun _ _ => [], fun _ _ => []⟩ false
        ⟨500, [("content-type", "text/css"), ("content-encoding", "gzip"),
          ("x-req-id", "42")], [7]⟩).body = [] ∧
     hGet (onProxyResModel ⟨"https://example.com/page".data, "/api/proxy?url=".data⟩
        ⟨fun _ => none, fun b => some b, fun b => some b⟩
        ⟨fun _ => true, fun _ _ => [], fun _ _ => []⟩ false
        ⟨500, [("content-type", "text/css"), ("content-encoding", "gzip"),
          ("x-req-id", "42")], [7]⟩).headers "x-req-id" =
      hGet [("content-type", "text/css"), ("content-encoding", "gzip"),
        ("x-req-id", "42")] "x-req-id") := by
  refine ⟨rfl, ?_⟩
  have h := claim_C9_amended ⟨"https://example.com/page".data, "/api/proxy?url=".data⟩
    ⟨fun _ => none, fun b => some b, fun b => some b⟩
    ⟨fun _ => true, fun _ _ => [], fun _ _ => []⟩ false
    ⟨500, [("content-type", "text/css"), ("content-encoding", "gzip"),
      ("x-req-id", "42")], [7]⟩ "text/css" rfl (by decide) (by rfl)
  exact ⟨h.1, h.2.1, h.2.2 "x-req-id" (by decide) (by decide)⟩

end Prox